import Mathlib

/-!
# Verification of the Minesweeper AI knowledge base (src/minesweeper.py)

Shallow embedding of the core of the repository: the `Sentence` data type,
the `MinesweeperAI` knowledge base with its `add_knowledge` fixpoint
inference loop, and the two move selectors `make_safe_move` and
`make_random_move`.

Modelling decisions:
* a cell is a pair of integers (Python tuples of ints);
* `Sentence.cells` is a `Finset` of cells (Python `set`), `count` is an
  integer (Python `int`, which may in principle go negative);
* the knowledge base is a `List Sentence` (Python `list`), with list
  membership deciding the duplicate checks via value equality, exactly as
  Python `in` uses `Sentence.__eq__` (equal cell set and equal count);
* Python mutates `Sentence` objects in place and fans the mutation out to
  every sentence in the list; the embedding passes the whole AI state
  explicitly, mapping the mutation over the knowledge list;
* the `while True` inference loop of `add_knowledge`, and the inner
  pairwise scan (whose Python iterators see elements appended during the
  scan), are embedded with an explicit fuel parameter: `none` means the
  fuel was exhausted before the loop exited;
* iteration order over a Python `set` is unspecified; the embedding
  iterates the sorted `cellList` of a `Finset`.  All properties proved
  here are independent of that choice except for which concrete cell
  `make_safe_move` picks, which the specification leaves unspecified.
-/

namespace Minesweeper

/-- A board cell: a `(row, column)` pair of integers. -/
abbrev Cell : Type := ℤ × ℤ

/-- Row-major ordering of cells, used only to give the embedding a
concrete iteration order over Python sets (whose order is unspecified). -/
def cellLE (a b : Cell) : Prop := a.1 < b.1 ∨ (a.1 = b.1 ∧ a.2 ≤ b.2)

instance : DecidableRel cellLE := fun a b => by
  unfold cellLE; exact inferInstance

instance : IsTrans Cell cellLE where
  trans a b c hab hbc := by unfold cellLE at *; omega

instance : IsAntisymm Cell cellLE where
  antisymm a b hab hba := by
    unfold cellLE at *
    have h1 : a.1 = b.1 ∧ a.2 = b.2 := by omega
    exact Prod.ext h1.1 h1.2

instance : IsTotal Cell cellLE where
  total a b := by unfold cellLE; omega

/-- Iterating a set of cells: the sorted list of its elements
(insertion sort, so that the definition reduces inside the kernel on
concrete inputs). -/
def cellList (t : Finset Cell) : List Cell :=
  Quot.liftOn t.val (fun l => l.insertionSort cellLE) fun a b h =>
    List.eq_of_perm_of_sorted
      ((List.perm_insertionSort cellLE a).trans
        (h.trans (List.perm_insertionSort cellLE b).symm))
      (List.sorted_insertionSort cellLE a) (List.sorted_insertionSort cellLE b)

lemma cellList_sorted (t : Finset Cell) : List.Sorted cellLE (cellList t) := by
  unfold cellList
  induction t.val using Quot.inductionOn with
  | h l => exact List.sorted_insertionSort cellLE l

lemma cellList_coe (t : Finset Cell) : (cellList t : Multiset Cell) = t.val := by
  unfold cellList
  induction t.val using Quot.inductionOn with
  | h l => exact Quot.sound (List.perm_insertionSort cellLE l)

lemma cellList_eq_sort (t : Finset Cell) : cellList t = t.sort cellLE := by
  refine List.eq_of_perm_of_sorted ?_ (cellList_sorted t) (Finset.sort_sorted cellLE t)
  refine Multiset.coe_eq_coe.mp ?_
  rw [cellList_coe, Finset.sort_eq]

lemma mem_cellList {t : Finset Cell} {c : Cell} : c ∈ cellList t ↔ c ∈ t := by
  rw [cellList_eq_sort, Finset.mem_sort]

lemma cellList_nodup (t : Finset Cell) : (cellList t).Nodup := by
  rw [cellList_eq_sort]; exact Finset.sort_nodup cellLE t

/-- `Sentence(cells, count)` from src/minesweeper.py: a set of board cells
together with the number of them that are mines.  Equality (`__eq__`) is
equality of the cell set and of the count. -/
structure Sentence where
  cells : Finset Cell
  count : ℤ

instance : DecidableEq Sentence := fun S T =>
  decidable_of_iff (S.cells = T.cells ∧ S.count = T.count)
    (by cases S; cases T; simp)

namespace Sentence

/-- `Sentence.known_mines`: all of `cells` when `len(cells) == count`,
else the empty set. -/
def known_mines (S : Sentence) : Finset Cell :=
  if (S.cells.card : ℤ) = S.count then S.cells else ∅

/-- `Sentence.known_safes`: all of `cells` when `count == 0`, else the
empty set. -/
def known_safes (S : Sentence) : Finset Cell :=
  if S.count = 0 then S.cells else ∅

/-- `Sentence.mark_mine`: if the cell is in the sentence, remove it and
decrement the count; otherwise leave the sentence unchanged. -/
def mark_mine (c : Cell) (S : Sentence) : Sentence :=
  if c ∈ S.cells then ⟨S.cells.erase c, S.count - 1⟩ else S

/-- `Sentence.mark_safe`: if the cell is in the sentence, remove it and
keep the count; otherwise leave the sentence unchanged. -/
def mark_safe (c : Cell) (S : Sentence) : Sentence :=
  if c ∈ S.cells then ⟨S.cells.erase c, S.count⟩ else S

end Sentence

/-- The `MinesweeperAI` state: grid bounds, the cells already clicked,
the cells known to be mines or safe, and the list of sentences. -/
structure MinesweeperAI where
  height : ℕ
  width : ℕ
  moves_made : Finset Cell
  mines : Finset Cell
  safes : Finset Cell
  knowledge : List Sentence

instance : DecidableEq MinesweeperAI := fun a b =>
  decidable_of_iff (a.height = b.height ∧ a.width = b.width ∧
      a.moves_made = b.moves_made ∧ a.mines = b.mines ∧
      a.safes = b.safes ∧ a.knowledge = b.knowledge)
    (by cases a; cases b; simp)

namespace MinesweeperAI

/-- `MinesweeperAI.__init__`: empty knowledge base for a grid. -/
def init (height width : ℕ) : MinesweeperAI :=
  ⟨height, width, ∅, ∅, ∅, []⟩

/-- `MinesweeperAI.mark_mine`: add the cell to `mines` and fan the update
out to every sentence in the knowledge base. -/
def mark_mine (c : Cell) (s : MinesweeperAI) : MinesweeperAI :=
  { s with mines := insert c s.mines,
           knowledge := s.knowledge.map (Sentence.mark_mine c) }

/-- `MinesweeperAI.mark_safe`: add the cell to `safes` and fan the update
out to every sentence in the knowledge base. -/
def mark_safe (c : Cell) (s : MinesweeperAI) : MinesweeperAI :=
  { s with safes := insert c s.safes,
           knowledge := s.knowledge.map (Sentence.mark_safe c) }

/-- One neighbour candidate of `add_knowledge`'s double loop: given the
probed cell and a candidate coordinate, either add it to the new
sentence's cell set, or decrement the working count (when it is a known
mine), or skip it, exactly as the branches at lines 202-212 of the
source do. -/
def neighbor_step (s : MinesweeperAI) (cell : Cell) (p : Cell)
    (acc : Finset Cell × ℤ) : Finset Cell × ℤ :=
  if p ≠ cell ∧ 0 ≤ p.1 ∧ p.1 < (s.height : ℤ) ∧ 0 ≤ p.2 ∧ p.2 < (s.width : ℤ) then
    if p ∉ s.moves_made ∧ p ∉ s.safes ∧ p ∉ s.mines then
      (insert p acc.1, acc.2)
    else if p ∈ s.mines then
      (acc.1, acc.2 - 1)
    else acc
  else acc

/-- The nine candidate coordinates scanned by `add_knowledge`'s double
loop over `range(cell[0]-1, cell[0]+2)` and `range(cell[1]-1, cell[1]+2)`
(the probed cell itself included here; `neighbor_step` skips it). -/
def neighbor_candidates (cell : Cell) : List Cell :=
  ([cell.1 - 1, cell.1, cell.1 + 1]).flatMap fun r =>
    ([cell.2 - 1, cell.2, cell.2 + 1]).map fun c => (r, c)

/-- The `cells_set` and adjusted `count` built by `add_knowledge`
(lines 199-214 of the source) for a probed cell. -/
def build_sentence (s : MinesweeperAI) (cell : Cell) (count : ℤ) :
    Finset Cell × ℤ :=
  (neighbor_candidates cell).foldl (fun acc p => neighbor_step s cell p acc)
    (∅, count)

/-- Marking every not-yet-safe cell of a snapshot list as safe, setting
the change flag on each actual mark: the inner
`for safe_cell in safe_cells.copy()` loop of the inference pass. -/
def mark_new_safes (cs : List Cell) (acc : MinesweeperAI × Bool) :
    MinesweeperAI × Bool :=
  cs.foldl (fun a c => if c ∈ a.1.safes then a else (mark_safe c a.1, true)) acc

/-- Marking every not-yet-mine cell of a snapshot list as a mine, setting
the change flag on each actual mark: the inner
`for mine_cell in mine_cells.copy()` loop of the inference pass. -/
def mark_new_mines (cs : List Cell) (acc : MinesweeperAI × Bool) :
    MinesweeperAI × Bool :=
  cs.foldl (fun a c => if c ∈ a.1.mines then a else (mark_mine c a.1, true)) acc

/-- Processing the sentence at index `i` in the direct-conclusion pass:
snapshot its known-safe cells and mark them, then (on the by-now mutated
sentence, as in the source, where the loop variable aliases the mutated
object) snapshot its known-mine cells and mark them. -/
def conclude_at (i : ℕ) (acc : MinesweeperAI × Bool) : MinesweeperAI × Bool :=
  match acc.1.knowledge.get? i with
  | none => acc
  | some snt =>
    let acc1 := mark_new_safes (cellList snt.known_safes) acc
    match acc1.1.knowledge.get? i with
    | none => acc1
    | some snt2 => mark_new_mines (cellList snt2.known_mines) acc1

/-- The direct-conclusion pass (lines 252-268 of the source): walk the
sentences of the knowledge base (whose length this pass never changes)
and mark every cell some sentence proves safe or mined. -/
def pass_conclusions (s : MinesweeperAI) : MinesweeperAI × Bool :=
  (List.range s.knowledge.length).foldl (fun acc i => conclude_at i acc)
    (s, false)

/-- The `sentence_based` derived from the sentences at positions `i` and
`j` of a knowledge list (line 282 of the source): the cells of the
superset sentence minus those of the subset sentence, with the counts
subtracted. -/
def derived_sentence (kn : List Sentence) (i j : ℕ) : Sentence :=
  ⟨(kn.getD j ⟨∅, 0⟩).cells \ (kn.getD i ⟨∅, 0⟩).cells,
    (kn.getD j ⟨∅, 0⟩).count - (kn.getD i ⟨∅, 0⟩).count⟩

/-- The subset-resolution scan (lines 270-286 of the source), embedded as
a fueled index machine: Python iterates `enumerate(self.knowledge)` while
appending to that same list, so both the outer and the inner iterator see
the appended sentences; the bounds are therefore re-checked against the
current list on every step.  Returns `none` when the fuel runs out. -/
def pass_subsets (fuel : ℕ) (i j : ℕ) (s : MinesweeperAI) (flag : Bool) :
    Option (MinesweeperAI × Bool) :=
  match fuel with
  | 0 => none
  | fuel + 1 =>
    if i < s.knowledge.length then
      if j < s.knowledge.length then
        if i = j then pass_subsets fuel i (j + 1) s flag
        else
          if (s.knowledge.getD i ⟨∅, 0⟩).cells ⊆ (s.knowledge.getD j ⟨∅, 0⟩).cells then
            if (derived_sentence s.knowledge i j).cells.card ≠ 0 then
              if derived_sentence s.knowledge i j ∈ s.knowledge then
                pass_subsets fuel i (j + 1) s flag
              else
                pass_subsets fuel i (j + 1)
                  { s with knowledge := s.knowledge ++ [derived_sentence s.knowledge i j] }
                  true
            else pass_subsets fuel i (j + 1) s flag
          else pass_subsets fuel i (j + 1) s flag
      else pass_subsets fuel (i + 1) 0 s flag
    else some (s, flag)

/-- One round of the `while True` loop body of `add_knowledge`: the
direct-conclusion pass followed by the subset-resolution scan, together
with the `loop_stop` change flag (here: `true` iff something changed). -/
def loop_round (fuel : ℕ) (s : MinesweeperAI) : Option (MinesweeperAI × Bool) :=
  let a := pass_conclusions s
  pass_subsets fuel 0 0 a.1 a.2

/-- The `while True` fixpoint loop of `add_knowledge` (lines 249-289):
repeat `loop_round` until a round reports no change.  `none` when the
fuel runs out first. -/
def inference_loop (fuel : ℕ) (s : MinesweeperAI) : Option MinesweeperAI :=
  match fuel with
  | 0 => none
  | fuel + 1 =>
    match loop_round fuel s with
    | none => none
    | some (s', flag) => if flag then inference_loop fuel s' else some s'

/-- The state on which `add_knowledge`'s inference loop starts: the move
recorded, the probed cell marked safe, and the new observation sentence
appended (lines 192-216 of the source). -/
def observe_start (s : MinesweeperAI) (cell : Cell) (count : ℤ) :
    MinesweeperAI :=
  let s1 := { s with moves_made := insert cell s.moves_made }
  let s2 := mark_safe cell s1
  let b := build_sentence s2 cell count
  { s2 with knowledge := s2.knowledge ++ [⟨b.1, b.2⟩] }

/-- `MinesweeperAI.add_knowledge(cell, count)`: record the move, mark the
probed cell safe, build and append the new observation sentence, then run
the inference loop to a fixpoint (with the given fuel). -/
def add_knowledge (fuel : ℕ) (cell : Cell) (count : ℤ) (s : MinesweeperAI) :
    Option MinesweeperAI :=
  inference_loop fuel (observe_start s cell count)

/-- `MinesweeperAI.make_safe_move`: the first cell of `safes` (in the
embedding's iteration order) that has not been clicked, else `none`. -/
def make_safe_move (s : MinesweeperAI) : Option Cell :=
  (cellList s.safes).find? fun c => decide (c ∉ s.moves_made)

/-- `MinesweeperAI.make_random_move`'s candidate list (lines 313-317 of
the source): note the source iterates rows over `range(self.width)` and
columns over `range(self.height)`.  The returned move, when the list is
non-empty, is the head after an external uniform shuffle, hence a
uniformly random element of this list. -/
def possible_random_cells (s : MinesweeperAI) : List Cell :=
  (List.range s.width).flatMap fun row =>
    (List.range s.height).filterMap fun col =>
      if ((row : ℤ), (col : ℤ)) ∉ s.moves_made ∧ ((row : ℤ), (col : ℤ)) ∉ s.mines
      then some ((row : ℤ), (col : ℤ)) else none

end MinesweeperAI

/-- Every coordinate within the bounds of a `height × width` grid, under
the convention the source uses everywhere but in `make_random_move`
(`0 <= row < height and 0 <= col < width`, as in `Minesweeper.__init__`,
`Minesweeper.nearby_mines` and in `add_knowledge`'s bounds check): rows
`0..height-1`, columns `0..width-1`. -/
def grid_cells (height width : ℕ) : Finset Cell :=
  ((Finset.range height) ×ˢ (Finset.range width)).image
    fun p => ((p.1 : ℤ), (p.2 : ℤ))

lemma mem_grid_cells {height width : ℕ} {p : Cell} :
    p ∈ grid_cells height width ↔
      0 ≤ p.1 ∧ p.1 < (height : ℤ) ∧ 0 ≤ p.2 ∧ p.2 < (width : ℤ) := by
  unfold grid_cells
  simp only [Finset.mem_image, Finset.mem_product, Finset.mem_range]
  constructor
  · rintro ⟨⟨a, b⟩, ⟨ha, hb⟩, rfl⟩
    refine ⟨Int.ofNat_nonneg a, ?_, Int.ofNat_nonneg b, ?_⟩ <;> exact_mod_cast (by omega)
  · rintro ⟨h1, h2, h3, h4⟩
    refine ⟨(p.1.toNat, p.2.toNat), ⟨?_, ?_⟩, ?_⟩
    · omega
    · omega
    · ext <;> simp <;> omega

/-- The coordinates within the grid's bounds of a state. -/
def all_cells (s : MinesweeperAI) : Finset Cell := grid_cells s.height s.width

/-- The in-bounds grid-adjacent neighbours of a cell: cells at Chebyshev
distance exactly one (within one row and one column, not the cell
itself), inside the grid.  This is the cell set over which
`Minesweeper.nearby_mines` counts the true adjacent mines. -/
def nbhd (height width : ℕ) (cell : Cell) : Finset Cell :=
  (grid_cells height width).filter fun p =>
    p ≠ cell ∧ p.1 - cell.1 ≤ 1 ∧ cell.1 - p.1 ≤ 1 ∧ p.2 - cell.2 ≤ 1 ∧ cell.2 - p.2 ≤ 1

lemma mem_nbhd {height width : ℕ} {cell p : Cell} :
    p ∈ nbhd height width cell ↔
      p ∈ grid_cells height width ∧ p ≠ cell ∧
        p.1 - cell.1 ≤ 1 ∧ cell.1 - p.1 ≤ 1 ∧ p.2 - cell.2 ≤ 1 ∧ cell.2 - p.2 ≤ 1 := by
  unfold nbhd
  simp [Finset.mem_filter, and_assoc]

/-- A sentence is true of a mine placement `M` when its count is exactly
the number of its cells that are mines. -/
def TrueSentence (M : Finset Cell) (S : Sentence) : Prop :=
  S.count = ((S.cells ∩ M).card : ℤ)

/-- The knowledge-base invariant relative to a mine placement `M`:
every sentence is true of `M`, no cell marked safe is a mine, every cell
marked as a mine is one, and every clicked cell has been marked safe. -/
def Inv (M : Finset Cell) (s : MinesweeperAI) : Prop :=
  (∀ S ∈ s.knowledge, TrueSentence M S) ∧
  (∀ c ∈ s.safes, c ∉ M) ∧
  (∀ c ∈ s.mines, c ∈ M) ∧
  (∀ c ∈ s.moves_made, c ∈ s.safes)

/-- The states reachable by the driver contract for mine placement `M`:
start from a fresh AI and repeatedly call `add_knowledge` on a
not-yet-clicked non-mine cell with the true count of adjacent mines
(with enough fuel for the inference loop to reach its fixpoint). -/
inductive Reaches (M : Finset Cell) : MinesweeperAI → Prop where
  | base (height width : ℕ) : Reaches M (MinesweeperAI.init height width)
  | step (s s' : MinesweeperAI) (cell : Cell) (fuel : ℕ) :
      Reaches M s → cell ∉ M → cell ∉ s.moves_made →
      MinesweeperAI.add_knowledge fuel cell
        ((nbhd s.height s.width cell ∩ M).card : ℤ) s = some s' →
      Reaches M s'

/-- All sentences of a state draw their cells from the universe `U`. -/
def CellsIn (U : Finset Cell) (s : MinesweeperAI) : Prop :=
  ∀ S ∈ s.knowledge, S.cells ⊆ U

/-- The number of distinct sentence values in a knowledge list. -/
def dcount (kn : List Sentence) : ℕ := kn.toFinset.card

/-- How many cells of the universe `U` have been marked safe or mined. -/
def marked_card (U : Finset Cell) (s : MinesweeperAI) : ℕ :=
  (s.safes ∩ U).card + (s.mines ∩ U).card

/-- `T` is an in-place narrowing of `S`: the cell set shrank, and the
count dropped by at most the number of removed cells and never rose
(this is what repeated `mark_mine`/`mark_safe` calls do to a sentence). -/
def Narrows (T S : Sentence) : Prop :=
  T.cells ⊆ S.cells ∧ T.count ≤ S.count ∧
    S.count - ((S.cells.card : ℤ) - (T.cells.card : ℤ)) ≤ T.count

/-- The union of all cells mentioned by a knowledge list. -/
def knowledge_cells (kn : List Sentence) : Finset Cell :=
  kn.foldr (fun S acc => S.cells ∪ acc) ∅

/-- Entry-wise narrowing of knowledge lists: the new list extends the
old one, and each old entry is still present at its index, narrowed in
place. -/
def ListNarrows (kn' kn : List Sentence) : Prop :=
  kn.length ≤ kn'.length ∧
    ∀ i, i < kn.length → ∀ S, kn.get? i = some S →
      ∃ T, kn'.get? i = some T ∧ Narrows T S

/-- The observation sentence that `add_knowledge fuel cell count` appends
to the knowledge base: `build_sentence` evaluated on the state in which
the probed cell has just been recorded as moved and marked safe. -/
def observation_sentence (s : MinesweeperAI) (cell : Cell) (count : ℤ) : Sentence :=
  ⟨((MinesweeperAI.mark_safe cell
      { s with moves_made := insert cell s.moves_made }).build_sentence cell count).1,
   ((MinesweeperAI.mark_safe cell
      { s with moves_made := insert cell s.moves_made }).build_sentence cell count).2⟩

/-! ## C7: the direct-conclusion queries of `Sentence` -/

/-- C7.  For every Statement `S`: if `S.count == 0` then `known_safes()`
returns exactly `S.cells`; if `S.count == |S.cells|` then `known_mines()`
returns exactly `S.cells`; otherwise both return the empty set.  (In the
embedding both operations are pure functions of `S`, reflecting that the
source methods only read `self`; they do not mutate the sentence.) -/
theorem known_mines_safes_spec (S : Sentence) :
    (S.count = 0 → S.known_safes = S.cells) ∧
    (S.count = (S.cells.card : ℤ) → S.known_mines = S.cells) ∧
    (S.count ≠ 0 → S.known_safes = ∅) ∧
    (S.count ≠ (S.cells.card : ℤ) → S.known_mines = ∅) := by
  unfold Sentence.known_safes Sentence.known_mines
  refine ⟨fun h => ?_, fun h => ?_, fun h => ?_, fun h => ?_⟩
  · simp [h]
  · simp [h.symm]
  · simp [h]
  · rw [if_neg (fun hc : (S.cells.card : ℤ) = S.count => h hc.symm)]

/-- Witness for C7 at concrete sentences, covering all three cases. -/
theorem known_mines_safes_spec_witness :
    (Sentence.known_safes ⟨{((0:ℤ),(0:ℤ)), ((0:ℤ),(1:ℤ))}, 0⟩ =
      {((0:ℤ),(0:ℤ)), ((0:ℤ),(1:ℤ))}) ∧
    (Sentence.known_mines ⟨{((0:ℤ),(0:ℤ)), ((0:ℤ),(1:ℤ))}, 2⟩ =
      {((0:ℤ),(0:ℤ)), ((0:ℤ),(1:ℤ))}) ∧
    (Sentence.known_safes ⟨{((0:ℤ),(0:ℤ)), ((0:ℤ),(1:ℤ))}, 1⟩ = ∅) ∧
    (Sentence.known_mines ⟨{((0:ℤ),(0:ℤ)), ((0:ℤ),(1:ℤ))}, 1⟩ = ∅) :=
  ⟨(known_mines_safes_spec _).1 (by decide),
   (known_mines_safes_spec _).2.1 (by decide),
   (known_mines_safes_spec _).2.2.1 (by decide),
   (known_mines_safes_spec _).2.2.2 (by decide)⟩

/-! ## C8: `make_safe_move` -/

/-- C8.  `make_safe_move` returns some cell of `safes \ moves_made`
whenever that set is non-empty, and returns `None` exactly when it is
empty; which eligible cell is returned is unspecified (here: the first in
the embedding's iteration order). -/
theorem make_safe_move_spec (s : MinesweeperAI) :
    (∀ c, s.make_safe_move = some c → c ∈ s.safes \ s.moves_made) ∧
    ((s.safes \ s.moves_made).Nonempty → ∃ c, s.make_safe_move = some c) ∧
    (s.safes \ s.moves_made = ∅ → s.make_safe_move = none) := by
  refine ⟨fun c hc => ?_, fun hne => ?_, fun hemp => ?_⟩
  · have hmem := List.mem_of_find?_eq_some hc
    have hp := List.find?_some hc
    rw [mem_cellList] at hmem
    simp only [decide_eq_true_eq] at hp
    simp [Finset.mem_sdiff, hmem, hp]
  · obtain ⟨c, hc⟩ := hne
    rw [Finset.mem_sdiff] at hc
    have hmem : c ∈ cellList s.safes := mem_cellList.mpr hc.1
    have : (cellList s.safes).find? (fun d => decide (d ∉ s.moves_made)) ≠ none := by
      intro hn
      have := List.find?_eq_none.mp hn c hmem
      simp [hc.2] at this
    obtain ⟨d, hd⟩ := Option.ne_none_iff_exists.mp this
    exact ⟨d, hd.symm⟩
  · unfold MinesweeperAI.make_safe_move
    rw [List.find?_eq_none]
    intro c hc
    rw [mem_cellList] at hc
    have : c ∈ s.moves_made := by
      by_contra hn
      have : c ∈ s.safes \ s.moves_made := Finset.mem_sdiff.mpr ⟨hc, hn⟩
      simp [hemp] at this
    simp [this]

/-- Witness for C8: Scenario D of the specification
(`safes = {(1,1)}`, `moves_made = {(1,1)}` gives no safe move) together
with a positive instance. -/
theorem make_safe_move_spec_witness :
    (MinesweeperAI.make_safe_move ⟨2, 2, {((1:ℤ),(1:ℤ))}, ∅, {((1:ℤ),(1:ℤ))}, []⟩ = none) ∧
    (∃ c, MinesweeperAI.make_safe_move ⟨2, 2, ∅, ∅, {((1:ℤ),(1:ℤ))}, []⟩ = some c) :=
  ⟨(make_safe_move_spec ⟨2, 2, {((1:ℤ),(1:ℤ))}, ∅, {((1:ℤ),(1:ℤ))}, []⟩).2.2 (by decide),
   (make_safe_move_spec ⟨2, 2, ∅, ∅, {((1:ℤ),(1:ℤ))}, []⟩).2.1 (by decide)⟩

/-! ## C1: `make_random_move` ignores the grid bounds convention -/

/-- C1 (code bug).  The claim says `make_random_move` draws uniformly
from `(all_cells \ moves_made) \ mines` with rows ranging over
`0..height-1` and columns over `0..width-1`.  The source instead iterates
rows over `range(self.width)` and columns over `range(self.height)`
(lines 314-315), so on a non-square grid its candidate list is not that
set: on a fresh 1×2 AI the code's candidates are `[(0,0), (1,0)]`, which
contain the out-of-bounds cell `(1,0)` and miss the in-bounds unprobed
cell `(0,1)`.  The returned move is the head of the shuffled candidate
list, so `(1,0)` can be returned and `(0,1)` never is. -/
theorem make_random_move_bounds_bug :
    MinesweeperAI.possible_random_cells (MinesweeperAI.init 1 2) =
      [((0:ℤ),(0:ℤ)), ((1:ℤ),(0:ℤ))] ∧
    ((1:ℤ),(0:ℤ)) ∉ all_cells (MinesweeperAI.init 1 2) ∧
    ((0:ℤ),(1:ℤ)) ∈
      (all_cells (MinesweeperAI.init 1 2) \
        (MinesweeperAI.init 1 2).moves_made) \ (MinesweeperAI.init 1 2).mines ∧
    ((0:ℤ),(1:ℤ)) ∉ MinesweeperAI.possible_random_cells (MinesweeperAI.init 1 2) := by
  refine ⟨by decide, by decide, by decide, by decide⟩

/-! ## C6: the observation sentence built by `add_knowledge` -/

lemma mem_neighbor_candidates {cell p : Cell} :
    p ∈ MinesweeperAI.neighbor_candidates cell ↔
      p.1 - cell.1 ≤ 1 ∧ cell.1 - p.1 ≤ 1 ∧ p.2 - cell.2 ≤ 1 ∧ cell.2 - p.2 ≤ 1 := by
  unfold MinesweeperAI.neighbor_candidates
  simp only [List.mem_flatMap, List.mem_map, List.mem_cons, List.mem_singleton,
    List.not_mem_nil, or_false]
  constructor
  · rintro ⟨r, hr, c, hc, rfl⟩
    simp only at *
    omega
  · rintro ⟨h1, h2, h3, h4⟩
    refine ⟨p.1, by omega, p.2, by omega, rfl⟩

lemma neighbor_candidates_nodup (cell : Cell) :
    (MinesweeperAI.neighbor_candidates cell).Nodup := by
  unfold MinesweeperAI.neighbor_candidates
  simp only [List.flatMap_cons, List.flatMap_nil, List.map_cons, List.map_nil,
    List.append_nil, List.cons_append, List.nil_append]
  simp only [List.nodup_cons, List.mem_cons, List.not_mem_nil, or_false,
    List.nodup_nil, and_true, Prod.mk.injEq, not_or, not_and]
  norm_num
  omega

lemma neighbor_fold_spec (s : MinesweeperAI) (cell : Cell) (L : List Cell)
    (A : Finset Cell) (k : ℤ) :
    (L.foldl (fun acc p => s.neighbor_step cell p acc) (A, k)) =
      (A ∪ (L.filter fun p => decide ((p ≠ cell ∧ 0 ≤ p.1 ∧ p.1 < (s.height : ℤ) ∧
          0 ≤ p.2 ∧ p.2 < (s.width : ℤ)) ∧
          p ∉ s.moves_made ∧ p ∉ s.safes ∧ p ∉ s.mines)).toFinset,
       k - (((L.filter fun p => decide ((p ≠ cell ∧ 0 ≤ p.1 ∧ p.1 < (s.height : ℤ) ∧
          0 ≤ p.2 ∧ p.2 < (s.width : ℤ)) ∧ p ∈ s.mines)).length : ℤ))) := by
  induction L generalizing A k with
  | nil => simp
  | cons p L ih =>
    rw [List.foldl_cons]
    by_cases hb : p ≠ cell ∧ 0 ≤ p.1 ∧ p.1 < (s.height : ℤ) ∧ 0 ≤ p.2 ∧ p.2 < (s.width : ℤ)
    · by_cases hin : p ∉ s.moves_made ∧ p ∉ s.safes ∧ p ∉ s.mines
      · have hstep : s.neighbor_step cell p (A, k) = (insert p A, k) := by
          unfold MinesweeperAI.neighbor_step
          rw [if_pos hb, if_pos hin]
        have hmn : ¬ ((p ≠ cell ∧ 0 ≤ p.1 ∧ p.1 < (s.height : ℤ) ∧
            0 ≤ p.2 ∧ p.2 < (s.width : ℤ)) ∧ p ∈ s.mines) := fun h => hin.2.2 h.2
        rw [hstep, ih]
        rw [List.filter_cons, List.filter_cons, if_pos (by simp [hb, hin]),
          if_neg (by simpa using hmn)]
        rw [Prod.mk.injEq]
        refine ⟨?_, rfl⟩
        simp only [List.toFinset_cons]
        ext q
        simp only [Finset.mem_union, Finset.mem_insert, List.mem_toFinset]
        tauto
      · by_cases hm : p ∈ s.mines
        · have hstep : s.neighbor_step cell p (A, k) = (A, k - 1) := by
            unfold MinesweeperAI.neighbor_step
            rw [if_pos hb, if_neg hin, if_pos hm]
          rw [hstep, ih]
          rw [List.filter_cons, List.filter_cons, if_neg (by simp [hin]),
            if_pos (by simp [hb, hm])]
          rw [Prod.mk.injEq]
          refine ⟨rfl, ?_⟩
          simp only [List.length_cons]
          push_cast
          ring
        · have hstep : s.neighbor_step cell p (A, k) = (A, k) := by
            unfold MinesweeperAI.neighbor_step
            rw [if_pos hb, if_neg hin, if_neg hm]
          rw [hstep, ih]
          rw [List.filter_cons, List.filter_cons, if_neg (by simp [hin]),
            if_neg (by simp [hm])]
    · have hstep : s.neighbor_step cell p (A, k) = (A, k) := by
        unfold MinesweeperAI.neighbor_step
        rw [if_neg hb]
      rw [hstep, ih]
      rw [List.filter_cons, List.filter_cons, if_neg (by simp [hb]),
        if_neg (by simp [hb])]

/-- C6.  The observation sentence that `add_knowledge` builds: its cell
set is exactly the in-bounds grid-adjacent neighbourhood of the probed
cell minus the cells already clicked, known safe or known mined; its
count is the given count decremented once per known-mine neighbour (and
only for those); and the probed cell itself is never included. -/
theorem build_sentence_spec (s : MinesweeperAI) (cell : Cell) (count : ℤ) :
    (s.build_sentence cell count).1 =
      nbhd s.height s.width cell \ (s.moves_made ∪ s.safes ∪ s.mines) ∧
    (s.build_sentence cell count).2 =
      count - (((nbhd s.height s.width cell ∩ s.mines).card : ℤ)) ∧
    cell ∉ (s.build_sentence cell count).1 := by
  unfold MinesweeperAI.build_sentence
  rw [neighbor_fold_spec]
  have hmemb : ∀ p : Cell,
      ((p ≠ cell ∧ 0 ≤ p.1 ∧ p.1 < (s.height : ℤ) ∧ 0 ≤ p.2 ∧ p.2 < (s.width : ℤ)) ∧
        p ∈ MinesweeperAI.neighbor_candidates cell) ↔
      p ∈ nbhd s.height s.width cell := by
    intro p
    rw [mem_nbhd, mem_grid_cells, mem_neighbor_candidates]
    tauto
  have hcells : ((MinesweeperAI.neighbor_candidates cell).filter fun p =>
      decide ((p ≠ cell ∧ 0 ≤ p.1 ∧ p.1 < (s.height : ℤ) ∧
        0 ≤ p.2 ∧ p.2 < (s.width : ℤ)) ∧
        p ∉ s.moves_made ∧ p ∉ s.safes ∧ p ∉ s.mines)).toFinset =
      nbhd s.height s.width cell \ (s.moves_made ∪ s.safes ∪ s.mines) := by
    ext p
    simp only [List.mem_toFinset, List.mem_filter, decide_eq_true_eq,
      Finset.mem_sdiff, Finset.mem_union]
    constructor
    · rintro ⟨hc, hb, h2⟩
      exact ⟨(hmemb p).mp ⟨hb, hc⟩, by tauto⟩
    · rintro ⟨hn, h2⟩
      obtain ⟨hb, hc⟩ := (hmemb p).mpr hn
      exact ⟨hc, hb, by tauto⟩
  have hcount : ((MinesweeperAI.neighbor_candidates cell).filter fun p =>
      decide ((p ≠ cell ∧ 0 ≤ p.1 ∧ p.1 < (s.height : ℤ) ∧
        0 ≤ p.2 ∧ p.2 < (s.width : ℤ)) ∧ p ∈ s.mines)).length =
      (nbhd s.height s.width cell ∩ s.mines).card := by
    rw [← List.toFinset_card_of_nodup
      (List.Nodup.filter _ (neighbor_candidates_nodup cell))]
    congr 1
    ext p
    simp only [List.mem_toFinset, List.mem_filter, decide_eq_true_eq,
      Finset.mem_inter]
    constructor
    · rintro ⟨hc, hb, hm⟩
      exact ⟨(hmemb p).mp ⟨hb, hc⟩, hm⟩
    · rintro ⟨hn, hm⟩
      obtain ⟨hb, hc⟩ := (hmemb p).mpr hn
      exact ⟨hc, hb, hm⟩
  refine ⟨by rw [hcells]; simp, by rw [hcount], ?_⟩
  rw [hcells]
  simp only [Finset.empty_union, Finset.mem_sdiff, mem_nbhd]
  tauto

/-! ## Structure of the inference loop: change flags and no-change runs -/

lemma mark_new_safes_cons (c : Cell) (cs : List Cell) (a : MinesweeperAI × Bool) :
    MinesweeperAI.mark_new_safes (c :: cs) a =
      MinesweeperAI.mark_new_safes cs
        (if c ∈ a.1.safes then a else (MinesweeperAI.mark_safe c a.1, true)) := rfl

lemma mark_new_mines_cons (c : Cell) (cs : List Cell) (a : MinesweeperAI × Bool) :
    MinesweeperAI.mark_new_mines (c :: cs) a =
      MinesweeperAI.mark_new_mines cs
        (if c ∈ a.1.mines then a else (MinesweeperAI.mark_mine c a.1, true)) := rfl

lemma mark_new_safes_true (cs : List Cell) :
    ∀ s : MinesweeperAI, (MinesweeperAI.mark_new_safes cs (s, true)).2 = true := by
  induction cs with
  | nil => intro s; rfl
  | cons c cs ih =>
    intro s
    rw [mark_new_safes_cons]
    by_cases hc : c ∈ s.safes
    · rw [if_pos hc]; exact ih s
    · rw [if_neg hc]; exact ih _

lemma mark_new_mines_true (cs : List Cell) :
    ∀ s : MinesweeperAI, (MinesweeperAI.mark_new_mines cs (s, true)).2 = true := by
  induction cs with
  | nil => intro s; rfl
  | cons c cs ih =>
    intro s
    rw [mark_new_mines_cons]
    by_cases hc : c ∈ s.mines
    · rw [if_pos hc]; exact ih s
    · rw [if_neg hc]; exact ih _

lemma mark_new_safes_id (cs : List Cell) :
    ∀ a : MinesweeperAI × Bool, (MinesweeperAI.mark_new_safes cs a).2 = false →
      MinesweeperAI.mark_new_safes cs a = a := by
  induction cs with
  | nil => intro a _; rfl
  | cons c cs ih =>
    intro a h
    rw [mark_new_safes_cons] at h ⊢
    by_cases hc : c ∈ a.1.safes
    · rw [if_pos hc] at h ⊢; exact ih a h
    · rw [if_neg hc] at h
      rw [mark_new_safes_true cs _] at h
      exact absurd h (by simp)

lemma mark_new_mines_id (cs : List Cell) :
    ∀ a : MinesweeperAI × Bool, (MinesweeperAI.mark_new_mines cs a).2 = false →
      MinesweeperAI.mark_new_mines cs a = a := by
  induction cs with
  | nil => intro a _; rfl
  | cons c cs ih =>
    intro a h
    rw [mark_new_mines_cons] at h ⊢
    by_cases hc : c ∈ a.1.mines
    · rw [if_pos hc] at h ⊢; exact ih a h
    · rw [if_neg hc] at h
      rw [mark_new_mines_true cs _] at h
      exact absurd h (by simp)

lemma conclude_at_id (i : ℕ) (acc : MinesweeperAI × Bool)
    (h : (MinesweeperAI.conclude_at i acc).2 = false) :
    MinesweeperAI.conclude_at i acc = acc := by
  unfold MinesweeperAI.conclude_at at h ⊢
  cases hg : acc.1.knowledge.get? i with
  | none => simp [hg]
  | some snt =>
    simp only [hg] at h ⊢
    cases hg2 : (MinesweeperAI.mark_new_safes (cellList snt.known_safes) acc).1.knowledge.get? i with
    | none =>
      simp only [hg2] at h ⊢
      exact mark_new_safes_id _ _ h
    | some snt2 =>
      simp only [hg2] at h ⊢
      have h2 := mark_new_mines_id _ _ h
      rw [h2] at h ⊢
      exact mark_new_safes_id _ _ h

lemma fold_conclude_id (l : List ℕ) :
    ∀ a : MinesweeperAI × Bool,
      ((l.foldl (fun acc i => MinesweeperAI.conclude_at i acc) a)).2 = false →
      l.foldl (fun acc i => MinesweeperAI.conclude_at i acc) a = a := by
  induction l with
  | nil => intro a _; rfl
  | cons i l ih =>
    intro a h
    rw [List.foldl_cons] at h ⊢
    have h1 := ih _ h
    rw [h1] at h ⊢
    exact conclude_at_id i a h

lemma pass_conclusions_id (s : MinesweeperAI)
    (h : (s.pass_conclusions).2 = false) : s.pass_conclusions = (s, false) := by
  unfold MinesweeperAI.pass_conclusions at h ⊢
  exact fold_conclude_id _ _ h

lemma eta_knowledge (s : MinesweeperAI) :
    { s with knowledge := s.knowledge ++ [] } = s := by
  cases s; simp

lemma pass_subsets_spec :
    ∀ (f i j : ℕ) (s : MinesweeperAI) (flag : Bool) (s' : MinesweeperAI)
      (flag' : Bool),
    MinesweeperAI.pass_subsets f i j s flag = some (s', flag') →
    ∃ t, s' = { s with knowledge := s.knowledge ++ t } ∧ t.Nodup ∧
      (∀ x ∈ t, x ∉ s.knowledge) ∧ flag' = (flag || !t.isEmpty) := by
  intro f
  induction f with
  | zero =>
    intro i j s flag s' flag' h
    exact absurd h (by simp [MinesweeperAI.pass_subsets])
  | succ f ih =>
    intro i j s flag s' flag' h
    rw [MinesweeperAI.pass_subsets] at h
    split_ifs at h with h1 h2 h3 h4 h5 h6
    · exact ih _ _ _ _ _ _ h
    · exact ih _ _ _ _ _ _ h
    · obtain ⟨t, hs', hnd, hnin, hfl⟩ := ih _ _ _ _ _ _ h
      refine ⟨MinesweeperAI.derived_sentence s.knowledge i j :: t, ?_, ?_, ?_, ?_⟩
      · rw [hs']
        simp [List.append_assoc]
      · refine List.nodup_cons.mpr ⟨?_, hnd⟩
        intro hmem
        exact hnin _ hmem (List.mem_append_right _ (List.mem_singleton.mpr rfl))
      · intro x hx
        rcases List.mem_cons.mp hx with rfl | hx'
        · exact h6
        · intro hxin
          exact hnin x hx' (List.mem_append_left _ hxin)
      · rw [hfl]
        simp
    · exact ih _ _ _ _ _ _ h
    · exact ih _ _ _ _ _ _ h
    · exact ih _ _ _ _ _ _ h
    · refine ⟨[], ?_, List.nodup_nil, by simp, ?_⟩
      · rcases Option.some.inj h with h'
        rw [← (Prod.mk.injEq _ _ _ _).mp h' |>.1, eta_knowledge]
      · rcases Option.some.inj h with h'
        rw [← (Prod.mk.injEq _ _ _ _).mp h' |>.2]
        simp

/-- Turning a kernel-computable `Option.get` equation into a `some`
equation (used by concrete witnesses, where direct `decide` on
`Option` equality would be blocked by an `Eq.rec` in the derived
`Option` instance). -/
lemma eq_some_of_get {α : Type} (o : Option α) (a : α) (h1 : o.isSome = true)
    (h2 : o.get h1 = a) : o = some a := by
  rw [← h2, Option.some_get]

lemma pass_subsets_mono :
    ∀ (f g i j : ℕ) (s : MinesweeperAI) (flag : Bool)
      (r : MinesweeperAI × Bool), f ≤ g →
    MinesweeperAI.pass_subsets f i j s flag = some r →
    MinesweeperAI.pass_subsets g i j s flag = some r := by
  intro f
  induction f with
  | zero =>
    intro g i j s flag r hle h
    exact absurd h (by simp [MinesweeperAI.pass_subsets])
  | succ f ih =>
    intro g i j s flag r hle h
    obtain ⟨g', rfl⟩ : ∃ g', g = g' + 1 := ⟨g - 1, by omega⟩
    rw [MinesweeperAI.pass_subsets] at h ⊢
    split_ifs at h ⊢ with h1 h2 h3 h4 h5 h6
    all_goals first
      | exact h
      | exact ih _ _ _ _ _ _ (by omega) h

lemma loop_round_mono (f g : ℕ) (s : MinesweeperAI) (r : MinesweeperAI × Bool)
    (hle : f ≤ g) (h : s.loop_round f = some r) : s.loop_round g = some r := by
  unfold MinesweeperAI.loop_round at h ⊢
  exact pass_subsets_mono _ _ _ _ _ _ _ hle h

lemma inference_loop_mono :
    ∀ (f g : ℕ) (s s' : MinesweeperAI), f ≤ g →
    MinesweeperAI.inference_loop f s = some s' →
    MinesweeperAI.inference_loop g s = some s' := by
  intro f
  induction f with
  | zero =>
    intro g s s' hle h
    exact absurd h (by simp [MinesweeperAI.inference_loop])
  | succ f ih =>
    intro g s s' hle h
    obtain ⟨g', rfl⟩ : ∃ g', g = g' + 1 := ⟨g - 1, by omega⟩
    rw [MinesweeperAI.inference_loop] at h ⊢
    cases hr : MinesweeperAI.loop_round f s with
    | none => rw [hr] at h; exact absurd h (by simp)
    | some p =>
      rw [hr] at h
      obtain ⟨s1, flag⟩ := p
      rw [loop_round_mono f g' s (s1, flag) (by omega) hr]
      cases flag with
      | false => simpa using h
      | true =>
        simp only [if_pos rfl] at h ⊢
        exact ih _ _ _ (by omega) h

lemma loop_round_false_id (f : ℕ) (s s1 : MinesweeperAI)
    (h : s.loop_round f = some (s1, false)) : s1 = s := by
  unfold MinesweeperAI.loop_round at h
  obtain ⟨t, hs', _, _, hfl⟩ := pass_subsets_spec _ _ _ _ _ _ _ h
  have h2 : s.pass_conclusions.2 = false := by
    rcases Bool.or_eq_false_iff.mp hfl.symm with ⟨ha, _⟩
    exact ha
  have ht : t = [] := by
    rcases Bool.or_eq_false_iff.mp hfl.symm with ⟨_, hb⟩
    simpa using hb
  have h3 := pass_conclusions_id s h2
  rw [ht] at hs'
  rw [hs', h3]
  exact eta_knowledge s

lemma inference_loop_fix :
    ∀ (f : ℕ) (s s' : MinesweeperAI),
    MinesweeperAI.inference_loop f s = some s' →
    ∃ g, MinesweeperAI.loop_round g s' = some (s', false) := by
  intro f
  induction f with
  | zero =>
    intro s s' h
    exact absurd h (by simp [MinesweeperAI.inference_loop])
  | succ f ih =>
    intro s s' h
    rw [MinesweeperAI.inference_loop] at h
    cases hr : MinesweeperAI.loop_round f s with
    | none => rw [hr] at h; exact absurd h (by simp)
    | some p =>
      rw [hr] at h
      obtain ⟨s1, flag⟩ := p
      cases flag with
      | true =>
        simp only [if_pos rfl] at h
        exact ih _ _ h
      | false =>
        have hs : s1 = s' := by simpa using h
        have hid := loop_round_false_id f s s1 hr
        refine ⟨f, ?_⟩
        rw [hid] at hr
        rw [hs.symm.trans hid]
        exact hr

/-! ## C9: fixpoint idempotence of the propagation procedure -/

/-- C9.  If an `add_knowledge` call has run its inference loop to the
fixpoint and returned state `s'`, then running the propagation procedure
again without a new observation changes nothing: one more round of the
direct-conclusion pass plus the subset-resolution scan returns `s'`
itself with the change flag down, and the whole loop returns `s'`
unchanged (for every sufficient fuel). -/
theorem observe_fixpoint_idempotent (f : ℕ) (cell : Cell) (count : ℤ)
    (s0 s' : MinesweeperAI)
    (h : MinesweeperAI.add_knowledge f cell count s0 = some s') :
    ∃ g, MinesweeperAI.loop_round g s' = some (s', false) ∧
      ∀ m, g < m → MinesweeperAI.inference_loop m s' = some s' := by
  unfold MinesweeperAI.add_knowledge at h
  obtain ⟨g, hg⟩ := inference_loop_fix _ _ _ h
  refine ⟨g, hg, fun m hm => ?_⟩
  obtain ⟨m', rfl⟩ : ∃ m', m = m' + 1 := ⟨m - 1, by omega⟩
  rw [MinesweeperAI.inference_loop]
  rw [loop_round_mono g m' s' (s', false) (by omega) hg]
  simp

/-- Witness for C9: after observing `(0,0)` (count 0) on a fresh 1×2
AI, the propagation procedure is idempotent on the resulting state. -/
theorem observe_fixpoint_idempotent_witness :
    ∃ g, MinesweeperAI.loop_round g
        ⟨1, 2, {((0:ℤ),(0:ℤ))}, ∅, {((0:ℤ),(0:ℤ)), ((0:ℤ),(1:ℤ))}, [⟨∅, 0⟩]⟩ =
      some (⟨1, 2, {((0:ℤ),(0:ℤ))}, ∅, {((0:ℤ),(0:ℤ)), ((0:ℤ),(1:ℤ))}, [⟨∅, 0⟩]⟩, false) ∧
    ∀ m, g < m → MinesweeperAI.inference_loop m
        ⟨1, 2, {((0:ℤ),(0:ℤ))}, ∅, {((0:ℤ),(0:ℤ)), ((0:ℤ),(1:ℤ))}, [⟨∅, 0⟩]⟩ =
      some ⟨1, 2, {((0:ℤ),(0:ℤ))}, ∅, {((0:ℤ),(0:ℤ)), ((0:ℤ),(1:ℤ))}, [⟨∅, 0⟩]⟩ :=
  observe_fixpoint_idempotent 30 ((0:ℤ),(0:ℤ)) 0 (MinesweeperAI.init 1 2)
    ⟨1, 2, {((0:ℤ),(0:ℤ))}, ∅, {((0:ℤ),(0:ℤ)), ((0:ℤ),(1:ℤ))}, [⟨∅, 0⟩]⟩
    (eq_some_of_get _ _ (by decide) (by decide))

/-! ## Narrowing: what the loop does to existing statements -/

lemma Narrows_refl (S : Sentence) : Narrows S S := by
  refine ⟨Finset.Subset.refl _, le_refl _, ?_⟩
  simp

lemma Narrows_trans {a b c : Sentence} (h1 : Narrows a b) (h2 : Narrows b c) :
    Narrows a c := by
  obtain ⟨hc1, hu1, hl1⟩ := h1
  obtain ⟨hc2, hu2, hl2⟩ := h2
  refine ⟨hc1.trans hc2, hu1.trans hu2, ?_⟩
  omega

lemma Narrows_inert {T : Sentence} (h : Narrows T ⟨∅, 0⟩) : T = ⟨∅, 0⟩ := by
  obtain ⟨hc, hu, hl⟩ := h
  have hce : T.cells = ∅ := Finset.subset_empty.mp hc
  have : T.cells.card = 0 := by rw [hce]; rfl
  cases T with
  | mk cells count =>
    simp only at hce hu hl this
    simp only [Sentence.mk.injEq]
    constructor
    · exact hce
    · simp only [Finset.card_empty, Nat.cast_zero, this] at hl hu
      omega

lemma sentence_mark_safe_narrows (c : Cell) (S : Sentence) :
    Narrows (Sentence.mark_safe c S) S := by
  unfold Sentence.mark_safe
  by_cases hc : c ∈ S.cells
  · rw [if_pos hc]
    have h1 : (S.cells.erase c).card = S.cells.card - 1 :=
      Finset.card_erase_of_mem hc
    have h2 : 1 ≤ S.cells.card := Finset.card_pos.mpr ⟨c, hc⟩
    refine ⟨Finset.erase_subset _ _, le_refl _, ?_⟩
    simp only [h1]
    omega
  · rw [if_neg hc]
    exact Narrows_refl S

lemma sentence_mark_mine_narrows (c : Cell) (S : Sentence) :
    Narrows (Sentence.mark_mine c S) S := by
  unfold Sentence.mark_mine
  by_cases hc : c ∈ S.cells
  · rw [if_pos hc]
    have h1 : (S.cells.erase c).card = S.cells.card - 1 :=
      Finset.card_erase_of_mem hc
    have h2 : 1 ≤ S.cells.card := Finset.card_pos.mpr ⟨c, hc⟩
    refine ⟨Finset.erase_subset _ _, ?_, ?_⟩
    · show S.count - 1 ≤ S.count
      omega
    · show S.count - ((S.cells.card : ℤ) - ((S.cells.erase c).card : ℤ)) ≤ S.count - 1
      rw [h1]
      omega
  · rw [if_neg hc]
    exact Narrows_refl S

lemma ListNarrows_refl (kn : List Sentence) : ListNarrows kn kn := by
  refine ⟨le_refl _, fun i hi S hS => ⟨S, hS, Narrows_refl S⟩⟩

lemma ListNarrows_trans {a b c : List Sentence}
    (h1 : ListNarrows a b) (h2 : ListNarrows b c) : ListNarrows a c := by
  obtain ⟨hl1, he1⟩ := h1
  obtain ⟨hl2, he2⟩ := h2
  refine ⟨hl2.trans hl1, fun i hi S hS => ?_⟩
  obtain ⟨T, hT, hTn⟩ := he2 i hi S hS
  obtain ⟨T2, hT2, hT2n⟩ := he1 i (by omega) T hT
  exact ⟨T2, hT2, Narrows_trans hT2n hTn⟩

lemma ListNarrows_map_safe (c : Cell) (kn : List Sentence) :
    ListNarrows (kn.map (Sentence.mark_safe c)) kn := by
  refine ⟨by simp, fun i hi S hS => ?_⟩
  refine ⟨Sentence.mark_safe c S, ?_, sentence_mark_safe_narrows c S⟩
  rw [List.get?_map, hS]
  rfl

lemma ListNarrows_map_mine (c : Cell) (kn : List Sentence) :
    ListNarrows (kn.map (Sentence.mark_mine c)) kn := by
  refine ⟨by simp, fun i hi S hS => ?_⟩
  refine ⟨Sentence.mark_mine c S, ?_, sentence_mark_mine_narrows c S⟩
  rw [List.get?_map, hS]
  rfl

lemma ListNarrows_append (kn t : List Sentence) :
    ListNarrows (kn ++ t) kn := by
  refine ⟨by simp, fun i hi S hS => ?_⟩
  refine ⟨S, ?_, Narrows_refl S⟩
  rw [List.get?_append hi]
  exact hS

lemma ListNarrows_append_both {a b : List Sentence} (h : ListNarrows a b)
    (hlen : a.length = b.length) (t : List Sentence) :
    ListNarrows (a ++ t) (b ++ t) := by
  obtain ⟨hl, he⟩ := h
  refine ⟨by simp [hlen], fun i hi S hS => ?_⟩
  by_cases hib : i < b.length
  · obtain ⟨T, hT, hTn⟩ := he i hib S (by rwa [List.get?_append hib] at hS)
    refine ⟨T, ?_, hTn⟩
    rw [List.get?_append (by omega)]
    exact hT
  · refine ⟨S, ?_, Narrows_refl S⟩
    rw [List.get?_append_right (by omega)] at hS
    rw [List.get?_append_right (by omega), hlen]
    exact hS

lemma mark_safe_knowledge_narrows (c : Cell) (s : MinesweeperAI) :
    ListNarrows (MinesweeperAI.mark_safe c s).knowledge s.knowledge :=
  ListNarrows_map_safe c s.knowledge

lemma mark_mine_knowledge_narrows (c : Cell) (s : MinesweeperAI) :
    ListNarrows (MinesweeperAI.mark_mine c s).knowledge s.knowledge :=
  ListNarrows_map_mine c s.knowledge

lemma mark_new_safes_narrows (cs : List Cell) :
    ∀ a : MinesweeperAI × Bool,
      ListNarrows (MinesweeperAI.mark_new_safes cs a).1.knowledge a.1.knowledge := by
  induction cs with
  | nil => intro a; exact ListNarrows_refl _
  | cons c cs ih =>
    intro a
    rw [mark_new_safes_cons]
    by_cases hc : c ∈ a.1.safes
    · rw [if_pos hc]; exact ih a
    · rw [if_neg hc]
      exact ListNarrows_trans (ih _) (mark_safe_knowledge_narrows c a.1)

lemma mark_new_mines_narrows (cs : List Cell) :
    ∀ a : MinesweeperAI × Bool,
      ListNarrows (MinesweeperAI.mark_new_mines cs a).1.knowledge a.1.knowledge := by
  induction cs with
  | nil => intro a; exact ListNarrows_refl _
  | cons c cs ih =>
    intro a
    rw [mark_new_mines_cons]
    by_cases hc : c ∈ a.1.mines
    · rw [if_pos hc]; exact ih a
    · rw [if_neg hc]
      exact ListNarrows_trans (ih _) (mark_mine_knowledge_narrows c a.1)

lemma conclude_at_narrows (i : ℕ) (acc : MinesweeperAI × Bool) :
    ListNarrows (MinesweeperAI.conclude_at i acc).1.knowledge acc.1.knowledge := by
  unfold MinesweeperAI.conclude_at
  cases hg : acc.1.knowledge.get? i with
  | none => exact ListNarrows_refl _
  | some snt =>
    simp only
    cases hg2 : (MinesweeperAI.mark_new_safes (cellList snt.known_safes) acc).1.knowledge.get? i with
    | none => exact mark_new_safes_narrows _ acc
    | some snt2 =>
      exact ListNarrows_trans (mark_new_mines_narrows _ _) (mark_new_safes_narrows _ acc)

lemma fold_conclude_narrows (l : List ℕ) :
    ∀ a : MinesweeperAI × Bool,
      ListNarrows
        ((l.foldl (fun acc i => MinesweeperAI.conclude_at i acc) a)).1.knowledge
        a.1.knowledge := by
  induction l with
  | nil => intro a; exact ListNarrows_refl _
  | cons i l ih =>
    intro a
    rw [List.foldl_cons]
    exact ListNarrows_trans (ih _) (conclude_at_narrows i a)

lemma pass_conclusions_narrows (s : MinesweeperAI) :
    ListNarrows (s.pass_conclusions).1.knowledge s.knowledge := by
  unfold MinesweeperAI.pass_conclusions
  exact fold_conclude_narrows _ _

lemma loop_round_narrows (f : ℕ) (s s1 : MinesweeperAI) (flag : Bool)
    (h : s.loop_round f = some (s1, flag)) :
    ListNarrows s1.knowledge s.knowledge := by
  unfold MinesweeperAI.loop_round at h
  obtain ⟨t, hs', _, _, _⟩ := pass_subsets_spec _ _ _ _ _ _ _ h
  rw [hs']
  exact ListNarrows_trans (ListNarrows_append _ t) (pass_conclusions_narrows s)

lemma inference_loop_narrows :
    ∀ (f : ℕ) (s s' : MinesweeperAI),
    MinesweeperAI.inference_loop f s = some s' →
    ListNarrows s'.knowledge s.knowledge := by
  intro f
  induction f with
  | zero =>
    intro s s' h
    exact absurd h (by simp [MinesweeperAI.inference_loop])
  | succ f ih =>
    intro s s' h
    rw [MinesweeperAI.inference_loop] at h
    cases hr : MinesweeperAI.loop_round f s with
    | none => rw [hr] at h; exact absurd h (by simp)
    | some p =>
      rw [hr] at h
      obtain ⟨s1, flag⟩ := p
      have hn1 := loop_round_narrows f s s1 flag hr
      cases flag with
      | false =>
        have hs : s1 = s' := by simpa using h
        rw [← hs]
        exact hn1
      | true =>
        simp only [if_pos rfl] at h
        exact ListNarrows_trans (ih _ _ h) hn1

lemma add_knowledge_narrows (f : ℕ) (cell : Cell) (count : ℤ)
    (s s' : MinesweeperAI) (h : MinesweeperAI.add_knowledge f cell count s = some s') :
    ListNarrows s'.knowledge
      (s.knowledge ++ [observation_sentence s cell count]) := by
  unfold MinesweeperAI.add_knowledge at h
  have h1 := inference_loop_narrows _ _ _ h
  refine ListNarrows_trans h1 ?_
  refine ListNarrows_append_both ?_ (by simp [MinesweeperAI.mark_safe]) _
  exact ListNarrows_map_safe cell s.knowledge

/-! ## C10: the statements list is append-only, never pruned -/

/-- C10.  Across an `add_knowledge` call (with enough fuel) the
statements list is append-only with no pruning: every statement present
before the call is still present at its index afterwards, narrowed in
place at most; the newly built observation statement is appended
unconditionally (even when its cell set is empty) at the next index and
survives, narrowed at most; and an inert `{∅}=0` statement is still
exactly `{∅}=0` afterwards, so such statements persist forever. -/
theorem add_knowledge_append_only (f : ℕ) (cell : Cell) (count : ℤ)
    (s s' : MinesweeperAI)
    (h : MinesweeperAI.add_knowledge f cell count s = some s') :
    ListNarrows s'.knowledge
      (s.knowledge ++ [observation_sentence s cell count]) ∧
    ∀ i, s.knowledge.get? i = some ⟨∅, 0⟩ →
      s'.knowledge.get? i = some ⟨∅, 0⟩ := by
  have h1 := add_knowledge_narrows f cell count s s' h
  refine ⟨h1, fun i hi => ?_⟩
  have hlt : i < s.knowledge.length := by
    by_contra hge
    rw [List.get?_eq_none.mpr (by omega)] at hi
    exact absurd hi (by simp)
  obtain ⟨T, hT, hTn⟩ := h1.2 i
    (by rw [List.length_append, List.length_singleton]; omega) ⟨∅, 0⟩
    (by rw [List.get?_append hlt]; exact hi)
  rw [hT, Narrows_inert hTn]

/-- Witness for C10: the second observation on the 1×2 grid appends its
(empty) observation sentence and keeps the inert first sentence. -/
theorem add_knowledge_append_only_witness :
    ListNarrows
      (⟨1, 2, {((0:ℤ),(0:ℤ)), ((0:ℤ),(1:ℤ))}, ∅,
        {((0:ℤ),(0:ℤ)), ((0:ℤ),(1:ℤ))}, [⟨∅, 0⟩, ⟨∅, 0⟩]⟩ :
          MinesweeperAI).knowledge
      ((⟨1, 2, {((0:ℤ),(0:ℤ))}, ∅, {((0:ℤ),(0:ℤ)), ((0:ℤ),(1:ℤ))},
          [⟨∅, 0⟩]⟩ : MinesweeperAI).knowledge ++
        [observation_sentence
          ⟨1, 2, {((0:ℤ),(0:ℤ))}, ∅, {((0:ℤ),(0:ℤ)), ((0:ℤ),(1:ℤ))}, [⟨∅, 0⟩]⟩
          ((0:ℤ),(1:ℤ)) 0]) ∧
    (⟨1, 2, {((0:ℤ),(0:ℤ)), ((0:ℤ),(1:ℤ))}, ∅,
        {((0:ℤ),(0:ℤ)), ((0:ℤ),(1:ℤ))}, [⟨∅, 0⟩, ⟨∅, 0⟩]⟩ :
          MinesweeperAI).knowledge.get? 0 = some ⟨∅, 0⟩ :=
  (fun h => ⟨h.1, h.2 0 (by decide)⟩)
    (add_knowledge_append_only 30 ((0:ℤ),(1:ℤ)) 0
      ⟨1, 2, {((0:ℤ),(0:ℤ))}, ∅, {((0:ℤ),(0:ℤ)), ((0:ℤ),(1:ℤ))}, [⟨∅, 0⟩]⟩
      ⟨1, 2, {((0:ℤ),(0:ℤ)), ((0:ℤ),(1:ℤ))}, ∅,
        {((0:ℤ),(0:ℤ)), ((0:ℤ),(1:ℤ))}, [⟨∅, 0⟩, ⟨∅, 0⟩]⟩
      (eq_some_of_get _ _ (by decide) (by decide)))

/-! ## C4: completeness of subset resolution at a fixpoint -/

lemma pass_subsets_complete :
    ∀ (f i j : ℕ) (s : MinesweeperAI) (flag flag' : Bool),
    MinesweeperAI.pass_subsets f i j s flag = some (s, flag') →
    ∀ a b, a < s.knowledge.length → b < s.knowledge.length → a ≠ b →
      (i < a ∨ (a = i ∧ j ≤ b)) →
      (s.knowledge.getD a ⟨∅, 0⟩).cells ⊆ (s.knowledge.getD b ⟨∅, 0⟩).cells →
      (s.knowledge.getD b ⟨∅, 0⟩).cells \ (s.knowledge.getD a ⟨∅, 0⟩).cells ≠ ∅ →
      MinesweeperAI.derived_sentence s.knowledge a b ∈ s.knowledge := by
  intro f
  induction f with
  | zero =>
    intro i j s flag flag' h
    exact absurd h (by simp [MinesweeperAI.pass_subsets])
  | succ f ih =>
    intro i j s flag flag' h
    rw [MinesweeperAI.pass_subsets] at h
    split_ifs at h with h1 h2 h3 h4 h5 h6
    · -- i = j: the pair (i, j) needs a ≠ b, so only later pairs matter
      intro a b ha hb hab hord hsub hne
      rcases hord with hgt | ⟨rfl, hge⟩
      · exact ih _ _ _ _ _ h a b ha hb hab (by omega) hsub hne
      · rcases Nat.lt_or_ge b (j + 1) with hlt | hge'
        · exact absurd (by omega : a = b) hab
        · exact ih _ _ _ _ _ h a b ha hb hab (by omega) hsub hne
    · -- derived sentence already present: it stays present (state unchanged)
      intro a b ha hb hab hord hsub hne
      rcases hord with hgt | ⟨rfl, hge⟩
      · exact ih _ _ _ _ _ h a b ha hb hab (by omega) hsub hne
      · rcases Nat.lt_or_ge b (j + 1) with hlt | hge'
        · have hbj : b = j := by omega
          subst hbj
          exact h6
        · exact ih _ _ _ _ _ h a b ha hb hab (by omega) hsub hne
    · -- an append happened, but the run claims the state is unchanged
      exfalso
      obtain ⟨t, hs', _, _, _⟩ := pass_subsets_spec _ _ _ _ _ _ _ h
      have hlen : s.knowledge.length =
          s.knowledge.length + 1 + t.length := by
        conv_lhs => rw [hs']
        simp
        try omega
      omega
    · -- empty difference at (i, j)
      intro a b ha hb hab hord hsub hne
      rcases hord with hgt | ⟨rfl, hge⟩
      · exact ih _ _ _ _ _ h a b ha hb hab (by omega) hsub hne
      · rcases Nat.lt_or_ge b (j + 1) with hlt | hge'
        · have hbj : b = j := by omega
          subst hbj
          exact absurd (Finset.card_eq_zero.mp (not_not.mp h5)) hne
        · exact ih _ _ _ _ _ h a b ha hb hab (by omega) hsub hne
    · -- no subset relation at (i, j)
      intro a b ha hb hab hord hsub hne
      rcases hord with hgt | ⟨rfl, hge⟩
      · exact ih _ _ _ _ _ h a b ha hb hab (by omega) hsub hne
      · rcases Nat.lt_or_ge b (j + 1) with hlt | hge'
        · have hbj : b = j := by omega
          subst hbj
          exact absurd hsub h4
        · exact ih _ _ _ _ _ h a b ha hb hab (by omega) hsub hne
    · -- inner index exhausted: move to the next outer index
      intro a b ha hb hab hord hsub hne
      rcases hord with hgt | ⟨rfl, hge⟩
      · rcases Nat.lt_or_ge a (i + 1) with hlt | hge'
        · omega
        · exact ih _ _ _ _ _ h a b ha hb hab (by omega) hsub hne
      · omega
    · -- outer index exhausted: there is no pair left in range
      intro a b ha hb hab hord hsub hne
      rcases hord with hgt | ⟨rfl, hge⟩ <;> omega

/-- C4.  At any state where the inference loop has reached its fixpoint
(one more round of `add_knowledge`'s loop body reports no change), the
knowledge base is closed under subset resolution: for any two statements
`A` and `B` present simultaneously with `A.cells ⊆ B.cells`, the
statement `{B.cells \\ A.cells, B.count - A.count}` is present in the
statements list whenever its cell set is non-empty. -/
theorem subset_resolution_at_fixpoint (s : MinesweeperAI)
    (hfix : ∃ f, s.loop_round f = some (s, false))
    (A B : Sentence) (hA : A ∈ s.knowledge) (hB : B ∈ s.knowledge)
    (hsub : A.cells ⊆ B.cells) (hne : B.cells \ A.cells ≠ ∅) :
    (⟨B.cells \ A.cells, B.count - A.count⟩ : Sentence) ∈ s.knowledge := by
  obtain ⟨f, hf⟩ := hfix
  unfold MinesweeperAI.loop_round at hf
  obtain ⟨t, hs', hnd, hnin, hfl⟩ := pass_subsets_spec _ _ _ _ _ _ _ hf
  have hpc2 : (s.pass_conclusions).2 = false := by
    rcases Bool.or_eq_false_iff.mp hfl.symm with ⟨ha, _⟩
    exact ha
  have hpc := pass_conclusions_id s hpc2
  rw [hpc] at hf
  have hAB : A ≠ B := by
    intro heq
    rw [heq] at hne
    simp at hne
  obtain ⟨ia, hia⟩ := List.get?_of_mem hA
  obtain ⟨ib, hib⟩ := List.get?_of_mem hB
  have hlta : ia < s.knowledge.length := (List.get?_eq_some.mp hia).1
  have hltb : ib < s.knowledge.length := (List.get?_eq_some.mp hib).1
  have hne2 : ia ≠ ib := by
    intro heq
    rw [heq, hib] at hia
    exact hAB (Option.some.inj hia).symm
  have hda : s.knowledge.getD ia ⟨∅, 0⟩ = A := by
    rw [List.getD_eq_get?, hia]; rfl
  have hdb : s.knowledge.getD ib ⟨∅, 0⟩ = B := by
    rw [List.getD_eq_get?, hib]; rfl
  have hmem := pass_subsets_complete f 0 0 s false false hf ia ib hlta hltb hne2
    (by omega) (by rw [hda, hdb]; exact hsub) (by rw [hda, hdb]; exact hne)
  unfold MinesweeperAI.derived_sentence at hmem
  rw [hda, hdb] at hmem
  exact hmem

/-- Witness for C4: at a concrete fixpoint state holding
`{(0,0),(0,1)}=1`, `{(0,0),(0,1),(0,2)}=2` and `{(0,2)}=1` (with
`(0,2)` already marked as a mine), the subset resolution of the first
two statements is present. -/
theorem subset_resolution_at_fixpoint_witness :
    (⟨({((0:ℤ),(0:ℤ)), ((0:ℤ),(1:ℤ)), ((0:ℤ),(2:ℤ))} : Finset Cell) \
        {((0:ℤ),(0:ℤ)), ((0:ℤ),(1:ℤ))}, 2 - 1⟩ : Sentence) ∈
      (⟨3, 3, ∅, {((0:ℤ),(2:ℤ))}, ∅,
        [⟨{((0:ℤ),(0:ℤ)), ((0:ℤ),(1:ℤ))}, 1⟩,
         ⟨{((0:ℤ),(0:ℤ)), ((0:ℤ),(1:ℤ)), ((0:ℤ),(2:ℤ))}, 2⟩,
         ⟨{((0:ℤ),(2:ℤ))}, 1⟩]⟩ : MinesweeperAI).knowledge :=
  subset_resolution_at_fixpoint
    ⟨3, 3, ∅, {((0:ℤ),(2:ℤ))}, ∅,
      [⟨{((0:ℤ),(0:ℤ)), ((0:ℤ),(1:ℤ))}, 1⟩,
       ⟨{((0:ℤ),(0:ℤ)), ((0:ℤ),(1:ℤ)), ((0:ℤ),(2:ℤ))}, 2⟩,
       ⟨{((0:ℤ),(2:ℤ))}, 1⟩]⟩
    ⟨40, by decide⟩
    ⟨{((0:ℤ),(0:ℤ)), ((0:ℤ),(1:ℤ))}, 1⟩
    ⟨{((0:ℤ),(0:ℤ)), ((0:ℤ),(1:ℤ)), ((0:ℤ),(2:ℤ))}, 2⟩
    (by decide) (by decide) (by decide) (by decide)

/-! ## C2: duplicate statements -/

/-- C2 counterexample.  A reachable knowledge-base state whose
`statements` list contains two equal entries.  On a fresh 1×2 AI with no
mines at all, observe `(0,0)` with its true count 0, then observe the
not-yet-probed cell `(0,1)` with its true count 0: `add_knowledge`
appends the second observation sentence without any duplicate check
(line 216 of the source), leaving the knowledge list with two equal
inert sentences. -/
theorem knowledge_duplicate_counterexample :
    ((MinesweeperAI.add_knowledge 30 ((0:ℤ),(0:ℤ)) 0 (MinesweeperAI.init 1 2)).bind
      (MinesweeperAI.add_knowledge 30 ((0:ℤ),(1:ℤ)) 0)).map
        (fun s => s.knowledge) = some [⟨∅, 0⟩, ⟨∅, 0⟩] := by decide

/-- Turning kernel-computable `Option.get` equations into a `some`
equation for a pair-valued option. -/
lemma eq_some_pair_of_get {α β : Type} (o : Option (α × β)) (a : α) (b : β)
    (h1 : o.isSome = true) (h2 : (o.get h1).1 = a) (h3 : (o.get h1).2 = b) :
    o = some (a, b) := by
  rw [← h2, ← h3]
  exact (Option.some_get h1).symm

/-- C2 amended.  Only the statements appended by the subset-resolution
scan are duplicate-checked: every sentence that scan appends was absent
(by value equality) from the list at the moment it was appended, so one
scan adds pairwise-distinct new sentences none of which equals a
pre-existing one.  The observation statement, by contrast, is appended
by `add_knowledge` unconditionally, with no duplicate check, so the
statements list can come to hold two equal entries (see the
counterexample). -/
theorem statements_dedup_amended :
    (∀ (f i j : ℕ) (s : MinesweeperAI) (flag : Bool) (s' : MinesweeperAI)
        (flag' : Bool),
      MinesweeperAI.pass_subsets f i j s flag = some (s', flag') →
      ∃ t, s'.knowledge = s.knowledge ++ t ∧ t.Nodup ∧
        ∀ x ∈ t, x ∉ s.knowledge) ∧
    (∀ (f : ℕ) (cell : Cell) (count : ℤ) (s s' : MinesweeperAI),
      MinesweeperAI.add_knowledge f cell count s = some s' →
      s.knowledge.length + 1 ≤ s'.knowledge.length) := by
  constructor
  · intro f i j s flag s' flag' h
    obtain ⟨t, hs', hnd, hnin, _⟩ := pass_subsets_spec _ _ _ _ _ _ _ h
    exact ⟨t, by rw [hs'], hnd, hnin⟩
  · intro f cell count s s' h
    have h1 := add_knowledge_narrows f cell count s s' h
    have h2 := h1.1
    simpa using h2

/-- Witness for C2 amended, at a concrete subset-resolution scan (which
appends the derived sentence exactly once) and a concrete
`add_knowledge` call (which appends its observation sentence even though
an equal sentence is already present). -/
theorem statements_dedup_amended_witness :
    (∃ t, (⟨3, 3, ∅, ∅, ∅,
        [⟨{((0:ℤ),(0:ℤ)), ((0:ℤ),(1:ℤ))}, 1⟩, ⟨{((0:ℤ),(0:ℤ))}, 1⟩,
         ⟨{((0:ℤ),(1:ℤ))}, 0⟩]⟩ : MinesweeperAI).knowledge =
      (⟨3, 3, ∅, ∅, ∅,
        [⟨{((0:ℤ),(0:ℤ)), ((0:ℤ),(1:ℤ))}, 1⟩, ⟨{((0:ℤ),(0:ℤ))}, 1⟩]⟩ :
          MinesweeperAI).knowledge ++ t ∧ t.Nodup ∧
      ∀ x ∈ t, x ∉ (⟨3, 3, ∅, ∅, ∅,
        [⟨{((0:ℤ),(0:ℤ)), ((0:ℤ),(1:ℤ))}, 1⟩, ⟨{((0:ℤ),(0:ℤ))}, 1⟩]⟩ :
          MinesweeperAI).knowledge) ∧
    (⟨1, 2, {((0:ℤ),(0:ℤ))}, ∅, {((0:ℤ),(0:ℤ)), ((0:ℤ),(1:ℤ))}, [⟨∅, 0⟩]⟩ :
        MinesweeperAI).knowledge.length + 1 ≤
      (⟨1, 2, {((0:ℤ),(0:ℤ)), ((0:ℤ),(1:ℤ))}, ∅,
        {((0:ℤ),(0:ℤ)), ((0:ℤ),(1:ℤ))}, [⟨∅, 0⟩, ⟨∅, 0⟩]⟩ :
        MinesweeperAI).knowledge.length :=
  ⟨statements_dedup_amended.1 40 0 0
      ⟨3, 3, ∅, ∅, ∅,
        [⟨{((0:ℤ),(0:ℤ)), ((0:ℤ),(1:ℤ))}, 1⟩, ⟨{((0:ℤ),(0:ℤ))}, 1⟩]⟩ false
      ⟨3, 3, ∅, ∅, ∅,
        [⟨{((0:ℤ),(0:ℤ)), ((0:ℤ),(1:ℤ))}, 1⟩, ⟨{((0:ℤ),(0:ℤ))}, 1⟩,
         ⟨{((0:ℤ),(1:ℤ))}, 0⟩]⟩ true
      (eq_some_pair_of_get _ _ _ (by decide) (by decide) (by decide)),
   statements_dedup_amended.2 30 ((0:ℤ),(1:ℤ)) 0
      ⟨1, 2, {((0:ℤ),(0:ℤ))}, ∅, {((0:ℤ),(0:ℤ)), ((0:ℤ),(1:ℤ))}, [⟨∅, 0⟩]⟩
      ⟨1, 2, {((0:ℤ),(0:ℤ)), ((0:ℤ),(1:ℤ))}, ∅,
        {((0:ℤ),(0:ℤ)), ((0:ℤ),(1:ℤ))}, [⟨∅, 0⟩, ⟨∅, 0⟩]⟩
      (eq_some_of_get _ _ (by decide) (by decide))⟩

/-! ## Truthfulness: the knowledge base never contradicts the board -/

lemma true_mark_safe {M : Finset Cell} {S : Sentence} {c : Cell}
    (h : TrueSentence M S) (hc : c ∉ M) :
    TrueSentence M (Sentence.mark_safe c S) := by
  unfold Sentence.mark_safe
  by_cases hm : c ∈ S.cells
  · rw [if_pos hm]
    have he : (S.cells.erase c) ∩ M = S.cells ∩ M := by
      ext x
      simp only [Finset.mem_inter, Finset.mem_erase]
      constructor
      · rintro ⟨⟨_, hx2⟩, hx3⟩
        exact ⟨hx2, hx3⟩
      · rintro ⟨hx1, hx2⟩
        exact ⟨⟨fun he' => hc (he' ▸ hx2), hx1⟩, hx2⟩
    unfold TrueSentence at *
    simpa [he] using h
  · rw [if_neg hm]
    exact h

lemma true_mark_mine {M : Finset Cell} {S : Sentence} {c : Cell}
    (h : TrueSentence M S) (hc : c ∈ M) :
    TrueSentence M (Sentence.mark_mine c S) := by
  unfold Sentence.mark_mine
  by_cases hm : c ∈ S.cells
  · rw [if_pos hm]
    have he : (S.cells.erase c) ∩ M = (S.cells ∩ M).erase c := by
      ext x
      simp only [Finset.mem_inter, Finset.mem_erase]
      tauto
    have hcm : c ∈ S.cells ∩ M := Finset.mem_inter.mpr ⟨hm, hc⟩
    have hcard : ((S.cells ∩ M).erase c).card = (S.cells ∩ M).card - 1 :=
      Finset.card_erase_of_mem hcm
    have hpos : 1 ≤ (S.cells ∩ M).card := Finset.card_pos.mpr ⟨c, hcm⟩
    unfold TrueSentence at *
    simp only [he, hcard]
    push_cast [hpos]
    omega
  · rw [if_neg hm]
    exact h

lemma known_safes_sound {M : Finset Cell} {S : Sentence} {c : Cell}
    (h : TrueSentence M S) (hc : c ∈ S.known_safes) : c ∉ M := by
  unfold Sentence.known_safes at hc
  by_cases h0 : S.count = 0
  · rw [if_pos h0] at hc
    unfold TrueSentence at h
    rw [h0] at h
    have hemp : S.cells ∩ M = ∅ :=
      Finset.card_eq_zero.mp (by exact_mod_cast h.symm)
    intro hcM
    have : c ∈ S.cells ∩ M := Finset.mem_inter.mpr ⟨hc, hcM⟩
    rw [hemp] at this
    exact absurd this (Finset.not_mem_empty c)
  · rw [if_neg h0] at hc
    exact absurd hc (Finset.not_mem_empty c)

lemma known_mines_sound {M : Finset Cell} {S : Sentence} {c : Cell}
    (h : TrueSentence M S) (hc : c ∈ S.known_mines) : c ∈ M := by
  unfold Sentence.known_mines at hc
  by_cases h0 : (S.cells.card : ℤ) = S.count
  · rw [if_pos h0] at hc
    unfold TrueSentence at h
    have hle : S.cells.card ≤ (S.cells ∩ M).card := by
      have : (S.cells.card : ℤ) = ((S.cells ∩ M).card : ℤ) := h0.trans h
      exact_mod_cast this.le
    have heq : S.cells ∩ M = S.cells :=
      Finset.eq_of_subset_of_card_le (Finset.inter_subset_left) hle
    have : c ∈ S.cells ∩ M := heq.symm ▸ hc
    exact (Finset.mem_inter.mp this).2
  · rw [if_neg h0] at hc
    exact absurd hc (Finset.not_mem_empty c)

lemma Inv_mark_safe {M : Finset Cell} {s : MinesweeperAI} {c : Cell}
    (h : Inv M s) (hc : c ∉ M) : Inv M (MinesweeperAI.mark_safe c s) := by
  obtain ⟨hkn, hsf, hmn, hmv⟩ := h
  refine ⟨?_, ?_, hmn, ?_⟩
  · intro S hS
    obtain ⟨S0, hS0, rfl⟩ := List.mem_map.mp hS
    exact true_mark_safe (hkn S0 hS0) hc
  · intro x hx
    rcases Finset.mem_insert.mp hx with rfl | hx'
    · exact hc
    · exact hsf x hx'
  · intro x hx
    exact Finset.mem_insert_of_mem (hmv x hx)

lemma Inv_mark_mine {M : Finset Cell} {s : MinesweeperAI} {c : Cell}
    (h : Inv M s) (hc : c ∈ M) : Inv M (MinesweeperAI.mark_mine c s) := by
  obtain ⟨hkn, hsf, hmn, hmv⟩ := h
  refine ⟨?_, hsf, ?_, hmv⟩
  · intro S hS
    obtain ⟨S0, hS0, rfl⟩ := List.mem_map.mp hS
    exact true_mark_mine (hkn S0 hS0) hc
  · intro x hx
    rcases Finset.mem_insert.mp hx with rfl | hx'
    · exact hc
    · exact hmn x hx'

lemma Inv_mark_new_safes {M : Finset Cell} (cs : List Cell)
    (hcs : ∀ c ∈ cs, c ∉ M) :
    ∀ a : MinesweeperAI × Bool, Inv M a.1 →
      Inv M (MinesweeperAI.mark_new_safes cs a).1 := by
  induction cs with
  | nil => intro a h; exact h
  | cons c cs ih =>
    intro a h
    rw [mark_new_safes_cons]
    by_cases hc : c ∈ a.1.safes
    · rw [if_pos hc]
      exact ih (fun d hd => hcs d (List.mem_cons_of_mem c hd)) a h
    · rw [if_neg hc]
      exact ih (fun d hd => hcs d (List.mem_cons_of_mem c hd)) _
        (Inv_mark_safe h (hcs c (List.mem_cons_self c cs)))

lemma Inv_mark_new_mines {M : Finset Cell} (cs : List Cell)
    (hcs : ∀ c ∈ cs, c ∈ M) :
    ∀ a : MinesweeperAI × Bool, Inv M a.1 →
      Inv M (MinesweeperAI.mark_new_mines cs a).1 := by
  induction cs with
  | nil => intro a h; exact h
  | cons c cs ih =>
    intro a h
    rw [mark_new_mines_cons]
    by_cases hc : c ∈ a.1.mines
    · rw [if_pos hc]
      exact ih (fun d hd => hcs d (List.mem_cons_of_mem c hd)) a h
    · rw [if_neg hc]
      exact ih (fun d hd => hcs d (List.mem_cons_of_mem c hd)) _
        (Inv_mark_mine h (hcs c (List.mem_cons_self c cs)))

lemma Inv_conclude_at {M : Finset Cell} (i : ℕ) (a : MinesweeperAI × Bool)
    (h : Inv M a.1) : Inv M (MinesweeperAI.conclude_at i a).1 := by
  unfold MinesweeperAI.conclude_at
  cases hg : a.1.knowledge.get? i with
  | none => exact h
  | some snt =>
    simp only
    have hsnt : snt ∈ a.1.knowledge := List.get?_mem hg
    have h1 : Inv M (MinesweeperAI.mark_new_safes (cellList snt.known_safes) a).1 := by
      refine Inv_mark_new_safes _ (fun c hc => ?_) a h
      exact known_safes_sound (h.1 snt hsnt) (mem_cellList.mp hc)
    cases hg2 : (MinesweeperAI.mark_new_safes (cellList snt.known_safes) a).1.knowledge.get? i with
    | none => exact h1
    | some snt2 =>
      have hsnt2 : snt2 ∈ (MinesweeperAI.mark_new_safes (cellList snt.known_safes) a).1.knowledge :=
        List.get?_mem hg2
      refine Inv_mark_new_mines _ (fun c hc => ?_) _ h1
      exact known_mines_sound (h1.1 snt2 hsnt2) (mem_cellList.mp hc)

lemma Inv_fold_conclude {M : Finset Cell} (l : List ℕ) :
    ∀ a : MinesweeperAI × Bool, Inv M a.1 →
      Inv M ((l.foldl (fun acc i => MinesweeperAI.conclude_at i acc) a)).1 := by
  induction l with
  | nil => intro a h; exact h
  | cons i l ih =>
    intro a h
    rw [List.foldl_cons]
    exact ih _ (Inv_conclude_at i a h)

lemma Inv_pass_conclusions {M : Finset Cell} (s : MinesweeperAI)
    (h : Inv M s) : Inv M (s.pass_conclusions).1 := by
  unfold MinesweeperAI.pass_conclusions
  exact Inv_fold_conclude _ _ h

lemma getD_mem_of_lt {kn : List Sentence} {i : ℕ} (hi : i < kn.length) :
    kn.getD i ⟨∅, 0⟩ ∈ kn := by
  rw [List.getD_eq_get?]
  cases hg : kn.get? i with
  | none =>
    have := List.get?_eq_none.mp hg
    omega
  | some S =>
    simp only [Option.getD_some]
    exact List.get?_mem hg

lemma derived_true {M : Finset Cell} {kn : List Sentence} {i j : ℕ}
    (hkn : ∀ S ∈ kn, TrueSentence M S)
    (hi : i < kn.length) (hj : j < kn.length)
    (hsub : (kn.getD i ⟨∅, 0⟩).cells ⊆ (kn.getD j ⟨∅, 0⟩).cells) :
    TrueSentence M (MinesweeperAI.derived_sentence kn i j) := by
  have hA : TrueSentence M (kn.getD i ⟨∅, 0⟩) := hkn _ (getD_mem_of_lt hi)
  have hB : TrueSentence M (kn.getD j ⟨∅, 0⟩) := hkn _ (getD_mem_of_lt hj)
  unfold TrueSentence MinesweeperAI.derived_sentence at *
  simp only
  have hset : ((kn.getD j ⟨∅, 0⟩).cells \ (kn.getD i ⟨∅, 0⟩).cells) ∩ M =
      ((kn.getD j ⟨∅, 0⟩).cells ∩ M) \ ((kn.getD i ⟨∅, 0⟩).cells ∩ M) := by
    ext x
    simp only [Finset.mem_inter, Finset.mem_sdiff]
    tauto
  have hss : (kn.getD i ⟨∅, 0⟩).cells ∩ M ⊆ (kn.getD j ⟨∅, 0⟩).cells ∩ M :=
    Finset.inter_subset_inter hsub (Finset.Subset.refl M)
  have hcard := Finset.card_sdiff hss
  rw [hset, hcard]
  have hle := Finset.card_le_card hss
  push_cast [hle]
  omega

lemma Inv_append_derived {M : Finset Cell} {s : MinesweeperAI} {i j : ℕ}
    (h : Inv M s) (hi : i < s.knowledge.length) (hj : j < s.knowledge.length)
    (hsub : (s.knowledge.getD i ⟨∅, 0⟩).cells ⊆ (s.knowledge.getD j ⟨∅, 0⟩).cells) :
    Inv M { s with knowledge :=
      s.knowledge ++ [MinesweeperAI.derived_sentence s.knowledge i j] } := by
  obtain ⟨hkn, hsf, hmn, hmv⟩ := h
  refine ⟨?_, hsf, hmn, hmv⟩
  intro S hS
  rcases List.mem_append.mp hS with hS' | hS'
  · exact hkn S hS'
  · rw [List.mem_singleton.mp hS']
    exact derived_true hkn hi hj hsub

lemma Inv_pass_subsets {M : Finset Cell} :
    ∀ (f i j : ℕ) (s : MinesweeperAI) (flag : Bool)
      (r : MinesweeperAI × Bool),
    MinesweeperAI.pass_subsets f i j s flag = some r →
    Inv M s → Inv M r.1 := by
  intro f
  induction f with
  | zero =>
    intro i j s flag r h
    exact absurd h (by simp [MinesweeperAI.pass_subsets])
  | succ f ih =>
    intro i j s flag r h hInv
    rw [MinesweeperAI.pass_subsets] at h
    split_ifs at h with h1 h2 h3 h4 h5 h6
    · exact ih _ _ _ _ _ h hInv
    · exact ih _ _ _ _ _ h hInv
    · exact ih _ _ _ _ _ h (Inv_append_derived hInv h1 h2 h4)
    · exact ih _ _ _ _ _ h hInv
    · exact ih _ _ _ _ _ h hInv
    · exact ih _ _ _ _ _ h hInv
    · obtain rfl : (s, flag) = r := Option.some.inj h
      exact hInv

lemma Inv_loop_round {M : Finset Cell} (f : ℕ) (s : MinesweeperAI)
    (r : MinesweeperAI × Bool) (h : s.loop_round f = some r)
    (hInv : Inv M s) : Inv M r.1 := by
  unfold MinesweeperAI.loop_round at h
  exact Inv_pass_subsets _ _ _ _ _ _ h (Inv_pass_conclusions s hInv)

lemma Inv_inference_loop {M : Finset Cell} :
    ∀ (f : ℕ) (s s' : MinesweeperAI),
    MinesweeperAI.inference_loop f s = some s' → Inv M s → Inv M s' := by
  intro f
  induction f with
  | zero =>
    intro s s' h
    exact absurd h (by simp [MinesweeperAI.inference_loop])
  | succ f ih =>
    intro s s' h hInv
    rw [MinesweeperAI.inference_loop] at h
    cases hr : MinesweeperAI.loop_round f s with
    | none => rw [hr] at h; exact absurd h (by simp)
    | some p =>
      rw [hr] at h
      obtain ⟨s1, flag⟩ := p
      have h1 : Inv M s1 := Inv_loop_round f s (s1, flag) hr hInv
      cases flag with
      | false =>
        have hs : s1 = s' := by simpa using h
        exact hs ▸ h1
      | true =>
        simp only [if_pos rfl] at h
        exact ih _ _ h h1

lemma Inv_after_probe {M : Finset Cell} {s : MinesweeperAI} {cell : Cell}
    (h : Inv M s) (hc : cell ∉ M) :
    Inv M (MinesweeperAI.mark_safe cell
      { s with moves_made := insert cell s.moves_made }) := by
  obtain ⟨hkn, hsf, hmn, hmv⟩ := h
  refine ⟨?_, ?_, hmn, ?_⟩
  · intro S hS
    obtain ⟨S0, hS0, rfl⟩ := List.mem_map.mp hS
    exact true_mark_safe (hkn S0 hS0) hc
  · intro x hx
    rcases Finset.mem_insert.mp hx with rfl | hx'
    · exact hc
    · exact hsf x hx'
  · intro x hx
    rcases Finset.mem_insert.mp hx with rfl | hx'
    · exact Finset.mem_insert_self x _
    · exact Finset.mem_insert_of_mem (hmv x hx')

lemma observation_sentence_true {M : Finset Cell} {s : MinesweeperAI}
    {cell : Cell} (h : Inv M s) (hc : cell ∉ M) :
    TrueSentence M (observation_sentence s cell
      ((nbhd s.height s.width cell ∩ M).card : ℤ)) := by
  have h2 := Inv_after_probe h hc
  set s2 := MinesweeperAI.mark_safe cell
    { s with moves_made := insert cell s.moves_made } with hs2
  obtain ⟨hkn2, hsf2, hmn2, hmv2⟩ := h2
  have hspec := build_sentence_spec s2 cell
    ((nbhd s.height s.width cell ∩ M).card : ℤ)
  have hh : s2.height = s.height := rfl
  have hw : s2.width = s.width := rfl
  unfold TrueSentence observation_sentence
  rw [← hs2]
  simp only
  rw [hspec.1, hspec.2.1, hh, hw]
  have hset : (nbhd s.height s.width cell \ (s2.moves_made ∪ s2.safes ∪ s2.mines)) ∩ M =
      (nbhd s.height s.width cell ∩ M) \ s2.mines := by
    ext x
    simp only [Finset.mem_inter, Finset.mem_sdiff, Finset.mem_union]
    constructor
    · rintro ⟨⟨hx1, hx2⟩, hx3⟩
      exact ⟨⟨hx1, hx3⟩, fun hm => hx2 (Or.inr hm)⟩
    · rintro ⟨⟨hx1, hx3⟩, hx2⟩
      have hxsf : x ∉ s2.safes := fun hs' => hsf2 x hs' hx3
      have hxmv : x ∉ s2.moves_made := fun hm' => hxsf (hmv2 x hm')
      exact ⟨⟨hx1, fun hor => by tauto⟩, hx3⟩
  have hmineq : (nbhd s.height s.width cell ∩ M) ∩ s2.mines =
      nbhd s.height s.width cell ∩ s2.mines := by
    ext x
    simp only [Finset.mem_inter]
    constructor
    · rintro ⟨⟨hx1, _⟩, hx2⟩
      exact ⟨hx1, hx2⟩
    · rintro ⟨hx1, hx2⟩
      exact ⟨⟨hx1, hmn2 x hx2⟩, hx2⟩
  have hsub : (nbhd s.height s.width cell ∩ M) ∩ s2.mines ⊆
      nbhd s.height s.width cell ∩ M := Finset.inter_subset_left
  have hcards : ((nbhd s.height s.width cell ∩ M) \ s2.mines).card =
      (nbhd s.height s.width cell ∩ M).card -
        ((nbhd s.height s.width cell ∩ M) ∩ s2.mines).card := by
    rw [← Finset.sdiff_inter_self_left]
    exact Finset.card_sdiff Finset.inter_subset_left
  rw [hset, hcards, hmineq]
  have hle : (nbhd s.height s.width cell ∩ s2.mines).card ≤
      (nbhd s.height s.width cell ∩ M).card := by
    rw [← hmineq]
    exact Finset.card_le_card Finset.inter_subset_left
  push_cast [hle]
  ring

lemma Inv_observe_start {M : Finset Cell} {cell : Cell}
    {s : MinesweeperAI} (h : Inv M s) (hc : cell ∉ M) :
    Inv M (MinesweeperAI.observe_start s cell
      ((nbhd s.height s.width cell ∩ M).card : ℤ)) := by
  have h2 := Inv_after_probe h hc
  obtain ⟨hkn2, hsf2, hmn2, hmv2⟩ := h2
  refine ⟨?_, hsf2, hmn2, hmv2⟩
  intro S hS
  rcases List.mem_append.mp hS with hS' | hS'
  · exact hkn2 S hS'
  · rw [List.mem_singleton.mp hS']
    exact observation_sentence_true h hc

lemma Inv_add_knowledge {M : Finset Cell} {f : ℕ} {cell : Cell}
    {s s' : MinesweeperAI} (h : Inv M s) (hc : cell ∉ M)
    (hrun : MinesweeperAI.add_knowledge f cell
      ((nbhd s.height s.width cell ∩ M).card : ℤ) s = some s') :
    Inv M s' := by
  unfold MinesweeperAI.add_knowledge at hrun
  exact Inv_inference_loop _ _ _ hrun (Inv_observe_start h hc)

lemma Reaches_Inv {M : Finset Cell} {s : MinesweeperAI}
    (h : Reaches M s) : Inv M s := by
  induction h with
  | base height width =>
    refine ⟨?_, ?_, ?_, ?_⟩ <;> intro x hx <;> simp [MinesweeperAI.init] at hx
  | step s s' cell fuel _ hcM _ hrun ih =>
    exact Inv_add_knowledge ih hcM hrun

/-! ## C5: safety of the derived sets on every reachable state -/

/-- C5.  After every finite sequence of `add_knowledge` calls under the
driver contract (each probing a not-previously-probed non-mine cell and
reporting the true count of adjacent mines for mine placement `M`), the
knowledge base satisfies `safes ∩ mines = ∅` and
`moves_made ⊆ safes`. -/
theorem reachable_safe_mine_disjoint (M : Finset Cell) (s : MinesweeperAI)
    (h : Reaches M s) :
    s.safes ∩ s.mines = ∅ ∧ s.moves_made ⊆ s.safes := by
  obtain ⟨_, hsf, hmn, hmv⟩ := Reaches_Inv h
  constructor
  · ext x
    simp only [Finset.mem_inter, Finset.not_mem_empty, iff_false, not_and]
    intro hx1 hx2
    exact hsf x hx1 (hmn x hx2)
  · intro x hx
    exact hmv x hx

/-- Witness for C5: the state reached by observing `(0,0)` (true count
0) on a mine-free 1×2 grid satisfies both invariants. -/
theorem reachable_safe_mine_disjoint_witness :
    (⟨1, 2, {((0:ℤ),(0:ℤ))}, ∅, {((0:ℤ),(0:ℤ)), ((0:ℤ),(1:ℤ))}, [⟨∅, 0⟩]⟩ :
        MinesweeperAI).safes ∩
      (⟨1, 2, {((0:ℤ),(0:ℤ))}, ∅, {((0:ℤ),(0:ℤ)), ((0:ℤ),(1:ℤ))}, [⟨∅, 0⟩]⟩ :
        MinesweeperAI).mines = ∅ ∧
    (⟨1, 2, {((0:ℤ),(0:ℤ))}, ∅, {((0:ℤ),(0:ℤ)), ((0:ℤ),(1:ℤ))}, [⟨∅, 0⟩]⟩ :
        MinesweeperAI).moves_made ⊆
      (⟨1, 2, {((0:ℤ),(0:ℤ))}, ∅, {((0:ℤ),(0:ℤ)), ((0:ℤ),(1:ℤ))}, [⟨∅, 0⟩]⟩ :
        MinesweeperAI).safes :=
  reachable_safe_mine_disjoint ∅
    ⟨1, 2, {((0:ℤ),(0:ℤ))}, ∅, {((0:ℤ),(0:ℤ)), ((0:ℤ),(1:ℤ))}, [⟨∅, 0⟩]⟩
    (Reaches.step (MinesweeperAI.init 1 2)
      ⟨1, 2, {((0:ℤ),(0:ℤ))}, ∅, {((0:ℤ),(0:ℤ)), ((0:ℤ),(1:ℤ))}, [⟨∅, 0⟩]⟩
      ((0:ℤ),(0:ℤ)) 30 (Reaches.base 1 2) (by decide) (by decide)
      (eq_some_of_get _ _ (by decide) (by decide)))

/-! ## Termination of the inference loop: the groundwork -/

lemma known_safes_subset (S : Sentence) : S.known_safes ⊆ S.cells := by
  unfold Sentence.known_safes
  split_ifs
  · exact Finset.Subset.refl _
  · exact Finset.empty_subset _

lemma known_mines_subset (S : Sentence) : S.known_mines ⊆ S.cells := by
  unfold Sentence.known_mines
  split_ifs
  · exact Finset.Subset.refl _
  · exact Finset.empty_subset _

lemma knowledge_cells_subset :
    ∀ (kn : List Sentence) (S : Sentence), S ∈ kn →
      S.cells ⊆ knowledge_cells kn := by
  intro kn
  induction kn with
  | nil => intro S hS; exact absurd hS (List.not_mem_nil S)
  | cons T kn ih =>
    intro S hS
    rcases List.mem_cons.mp hS with rfl | hS'
    · exact Finset.subset_union_left
    · exact (ih S hS').trans Finset.subset_union_right

lemma dcount_append_not_mem {kn : List Sentence} {x : Sentence}
    (hx : x ∉ kn) : dcount (kn ++ [x]) = dcount kn + 1 := by
  unfold dcount
  rw [List.toFinset_append]
  have h1 : ([x] : List Sentence).toFinset = {x} := by simp
  rw [h1]
  have h2 : kn.toFinset ∪ {x} = insert x kn.toFinset := by
    rw [Finset.union_comm]
    simp [Finset.insert_eq]
  rw [h2, Finset.card_insert_of_not_mem (by simpa using hx)]

lemma dcount_append_disjoint {kn t : List Sentence}
    (hnd : t.Nodup) (hdis : ∀ x ∈ t, x ∉ kn) :
    dcount (kn ++ t) = dcount kn + t.length := by
  unfold dcount
  rw [List.toFinset_append]
  rw [Finset.card_union_of_disjoint]
  · rw [List.toFinset_card_of_nodup hnd]
  · rw [Finset.disjoint_right]
    intro x hx
    simp only [List.mem_toFinset] at hx ⊢
    exact hdis x hx

lemma dcount_le_pow {M U : Finset Cell} {kn : List Sentence}
    (hkn : ∀ S ∈ kn, TrueSentence M S)
    (hcells : ∀ S ∈ kn, S.cells ⊆ U) :
    dcount kn ≤ 2 ^ U.card := by
  unfold dcount
  rw [← Finset.card_powerset]
  refine Finset.card_le_card_of_injOn (fun S => S.cells) ?_ ?_
  · intro S hS
    rw [Finset.mem_powerset]
    exact hcells S (List.mem_toFinset.mp hS)
  · intro S hS T hT hco
    have h1 : TrueSentence M S := hkn S (List.mem_toFinset.mp hS)
    have h2 : TrueSentence M T := hkn T (List.mem_toFinset.mp hT)
    unfold TrueSentence at h1 h2
    cases S with
    | mk sc scount =>
      cases T with
      | mk tc tcount =>
        simp only at hco h1 h2
        rw [Sentence.mk.injEq]
        refine ⟨hco, ?_⟩
        rw [h1, h2, hco]

lemma marked_card_le (U : Finset Cell) (s : MinesweeperAI) :
    marked_card U s ≤ 2 * U.card := by
  unfold marked_card
  have h1 : (s.safes ∩ U).card ≤ U.card :=
    Finset.card_le_card Finset.inter_subset_right
  have h2 : (s.mines ∩ U).card ≤ U.card :=
    Finset.card_le_card Finset.inter_subset_right
  omega

lemma marked_card_mark_safe {U : Finset Cell} {s : MinesweeperAI} {c : Cell}
    (hcU : c ∈ U) (hns : c ∉ s.safes) :
    marked_card U (MinesweeperAI.mark_safe c s) = marked_card U s + 1 := by
  unfold marked_card MinesweeperAI.mark_safe
  simp only
  rw [Finset.insert_inter_of_mem hcU,
    Finset.card_insert_of_not_mem (fun hmem => hns (Finset.mem_inter.mp hmem).1)]
  omega

lemma marked_card_mark_mine {U : Finset Cell} {s : MinesweeperAI} {c : Cell}
    (hcU : c ∈ U) (hns : c ∉ s.mines) :
    marked_card U (MinesweeperAI.mark_mine c s) = marked_card U s + 1 := by
  unfold marked_card MinesweeperAI.mark_mine
  simp only
  rw [Finset.insert_inter_of_mem hcU,
    Finset.card_insert_of_not_mem (fun hmem => hns (Finset.mem_inter.mp hmem).1)]
  omega

lemma CellsIn_mark_safe {U : Finset Cell} {s : MinesweeperAI} (c : Cell)
    (h : CellsIn U s) : CellsIn U (MinesweeperAI.mark_safe c s) := by
  intro S hS
  obtain ⟨S0, hS0, rfl⟩ := List.mem_map.mp hS
  unfold Sentence.mark_safe
  split_ifs
  · exact (Finset.erase_subset _ _).trans (h S0 hS0)
  · exact h S0 hS0

lemma CellsIn_mark_mine {U : Finset Cell} {s : MinesweeperAI} (c : Cell)
    (h : CellsIn U s) : CellsIn U (MinesweeperAI.mark_mine c s) := by
  intro S hS
  obtain ⟨S0, hS0, rfl⟩ := List.mem_map.mp hS
  unfold Sentence.mark_mine
  split_ifs
  · exact (Finset.erase_subset _ _).trans (h S0 hS0)
  · exact h S0 hS0

lemma progress_mark_new_safes {U : Finset Cell} (cs : List Cell)
    (hcs : ∀ c ∈ cs, c ∈ U) :
    ∀ a : MinesweeperAI × Bool, CellsIn U a.1 →
      CellsIn U (MinesweeperAI.mark_new_safes cs a).1 ∧
      marked_card U a.1 ≤ marked_card U (MinesweeperAI.mark_new_safes cs a).1 ∧
      ((MinesweeperAI.mark_new_safes cs a).2 = true →
        a.2 = true ∨ marked_card U a.1 <
          marked_card U (MinesweeperAI.mark_new_safes cs a).1) := by
  induction cs with
  | nil =>
    intro a hC
    exact ⟨hC, le_refl _, fun h => Or.inl h⟩
  | cons c cs ih =>
    intro a hC
    rw [mark_new_safes_cons]
    by_cases hc : c ∈ a.1.safes
    · rw [if_pos hc]
      exact ih (fun d hd => hcs d (List.mem_cons_of_mem c hd)) a hC
    · rw [if_neg hc]
      have hstep : marked_card U (MinesweeperAI.mark_safe c a.1) =
          marked_card U a.1 + 1 :=
        marked_card_mark_safe (hcs c (List.mem_cons_self c cs)) hc
      have hCs : CellsIn U (MinesweeperAI.mark_safe c a.1) :=
        CellsIn_mark_safe c hC
      obtain ⟨hC2, hle2, _⟩ :=
        ih (fun d hd => hcs d (List.mem_cons_of_mem c hd))
          (MinesweeperAI.mark_safe c a.1, true) hCs
      have hle2' : marked_card U (MinesweeperAI.mark_safe c a.1) ≤
          marked_card U (MinesweeperAI.mark_new_safes cs
            (MinesweeperAI.mark_safe c a.1, true)).1 := hle2
      refine ⟨hC2, by omega, fun _ => Or.inr (by omega)⟩

lemma progress_mark_new_mines {U : Finset Cell} (cs : List Cell)
    (hcs : ∀ c ∈ cs, c ∈ U) :
    ∀ a : MinesweeperAI × Bool, CellsIn U a.1 →
      CellsIn U (MinesweeperAI.mark_new_mines cs a).1 ∧
      marked_card U a.1 ≤ marked_card U (MinesweeperAI.mark_new_mines cs a).1 ∧
      ((MinesweeperAI.mark_new_mines cs a).2 = true →
        a.2 = true ∨ marked_card U a.1 <
          marked_card U (MinesweeperAI.mark_new_mines cs a).1) := by
  induction cs with
  | nil =>
    intro a hC
    exact ⟨hC, le_refl _, fun h => Or.inl h⟩
  | cons c cs ih =>
    intro a hC
    rw [mark_new_mines_cons]
    by_cases hc : c ∈ a.1.mines
    · rw [if_pos hc]
      exact ih (fun d hd => hcs d (List.mem_cons_of_mem c hd)) a hC
    · rw [if_neg hc]
      have hstep : marked_card U (MinesweeperAI.mark_mine c a.1) =
          marked_card U a.1 + 1 :=
        marked_card_mark_mine (hcs c (List.mem_cons_self c cs)) hc
      have hCs : CellsIn U (MinesweeperAI.mark_mine c a.1) :=
        CellsIn_mark_mine c hC
      obtain ⟨hC2, hle2, _⟩ :=
        ih (fun d hd => hcs d (List.mem_cons_of_mem c hd))
          (MinesweeperAI.mark_mine c a.1, true) hCs
      have hle2' : marked_card U (MinesweeperAI.mark_mine c a.1) ≤
          marked_card U (MinesweeperAI.mark_new_mines cs
            (MinesweeperAI.mark_mine c a.1, true)).1 := hle2
      refine ⟨hC2, by omega, fun _ => Or.inr (by omega)⟩

lemma progress_conclude_at {U : Finset Cell} (i : ℕ) (a : MinesweeperAI × Bool)
    (hC : CellsIn U a.1) :
    CellsIn U (MinesweeperAI.conclude_at i a).1 ∧
    marked_card U a.1 ≤ marked_card U (MinesweeperAI.conclude_at i a).1 ∧
    ((MinesweeperAI.conclude_at i a).2 = true →
      a.2 = true ∨ marked_card U a.1 <
        marked_card U (MinesweeperAI.conclude_at i a).1) := by
  cases hg : a.1.knowledge.get? i with
  | none =>
    have hred : MinesweeperAI.conclude_at i a = a := by
      unfold MinesweeperAI.conclude_at
      simp only [hg]
    rw [hred]
    exact ⟨hC, le_refl _, fun h => Or.inl h⟩
  | some snt =>
    have hsnt : snt ∈ a.1.knowledge := List.get?_mem hg
    have hcs1 : ∀ c ∈ cellList snt.known_safes, c ∈ U := fun c hc =>
      hC snt hsnt (known_safes_subset snt (mem_cellList.mp hc))
    obtain ⟨hC1, hle1, hfl1⟩ := progress_mark_new_safes _ hcs1 a hC
    cases hg2 : (MinesweeperAI.mark_new_safes (cellList snt.known_safes) a).1.knowledge.get? i with
    | none =>
      have hred : MinesweeperAI.conclude_at i a =
          MinesweeperAI.mark_new_safes (cellList snt.known_safes) a := by
        unfold MinesweeperAI.conclude_at
        simp only [hg]
        simp only [hg2]
      rw [hred]
      exact ⟨hC1, hle1, hfl1⟩
    | some snt2 =>
      have hred : MinesweeperAI.conclude_at i a =
          MinesweeperAI.mark_new_mines (cellList snt2.known_mines)
            (MinesweeperAI.mark_new_safes (cellList snt.known_safes) a) := by
        unfold MinesweeperAI.conclude_at
        simp only [hg]
        simp only [hg2]
      have hsnt2 : snt2 ∈
          (MinesweeperAI.mark_new_safes (cellList snt.known_safes) a).1.knowledge :=
        List.get?_mem hg2
      have hcs2 : ∀ c ∈ cellList snt2.known_mines, c ∈ U := fun c hc =>
        hC1 snt2 hsnt2 (known_mines_subset snt2 (mem_cellList.mp hc))
      obtain ⟨hC2, hle2, hfl2⟩ := progress_mark_new_mines _ hcs2 _ hC1
      rw [hred]
      refine ⟨hC2, hle1.trans hle2, fun hfin => ?_⟩
      rcases hfl2 hfin with hmid | hstrict
      · rcases hfl1 hmid with hstart | hstrict'
        · exact Or.inl hstart
        · exact Or.inr (by omega)
      · exact Or.inr (by omega)

lemma progress_fold_conclude {U : Finset Cell} (l : List ℕ) :
    ∀ a : MinesweeperAI × Bool, CellsIn U a.1 →
      CellsIn U ((l.foldl (fun acc i => MinesweeperAI.conclude_at i acc) a)).1 ∧
      marked_card U a.1 ≤
        marked_card U ((l.foldl (fun acc i => MinesweeperAI.conclude_at i acc) a)).1 ∧
      (((l.foldl (fun acc i => MinesweeperAI.conclude_at i acc) a)).2 = true →
        a.2 = true ∨ marked_card U a.1 <
          marked_card U ((l.foldl (fun acc i => MinesweeperAI.conclude_at i acc) a)).1) := by
  induction l with
  | nil =>
    intro a hC
    exact ⟨hC, le_refl _, fun h => Or.inl h⟩
  | cons i l ih =>
    intro a hC
    rw [List.foldl_cons]
    obtain ⟨hC1, hle1, hfl1⟩ := progress_conclude_at i a hC
    obtain ⟨hC2, hle2, hfl2⟩ := ih _ hC1
    refine ⟨hC2, hle1.trans hle2, fun hfin => ?_⟩
    rcases hfl2 hfin with hmid | hstrict
    · rcases hfl1 hmid with hstart | hstrict'
      · exact Or.inl hstart
      · exact Or.inr (by omega)
    · exact Or.inr (by omega)

lemma pass_conclusions_progress {U : Finset Cell} (s : MinesweeperAI)
    (hC : CellsIn U s) :
    CellsIn U (s.pass_conclusions).1 ∧
    marked_card U s ≤ marked_card U (s.pass_conclusions).1 ∧
    ((s.pass_conclusions).2 = true →
      marked_card U s < marked_card U (s.pass_conclusions).1) := by
  unfold MinesweeperAI.pass_conclusions
  obtain ⟨hC1, hle1, hfl1⟩ := progress_fold_conclude
    (List.range s.knowledge.length) (s, false) hC
  refine ⟨hC1, hle1, fun hfin => ?_⟩
  rcases hfl1 hfin with hstart | hstrict
  · exact absurd hstart (by simp)
  · exact hstrict

lemma CellsIn_pass_subsets {U : Finset Cell} :
    ∀ (f i j : ℕ) (s : MinesweeperAI) (flag : Bool)
      (r : MinesweeperAI × Bool),
    MinesweeperAI.pass_subsets f i j s flag = some r →
    CellsIn U s → CellsIn U r.1 := by
  intro f
  induction f with
  | zero =>
    intro i j s flag r h
    exact absurd h (by simp [MinesweeperAI.pass_subsets])
  | succ f ih =>
    intro i j s flag r h hC
    rw [MinesweeperAI.pass_subsets] at h
    split_ifs at h with h1 h2 h3 h4 h5 h6
    · exact ih _ _ _ _ _ h hC
    · exact ih _ _ _ _ _ h hC
    · refine ih _ _ _ _ _ h ?_
      intro S hS
      rcases List.mem_append.mp hS with hS' | hS'
      · exact hC S hS'
      · rw [List.mem_singleton.mp hS']
        refine (Finset.sdiff_subset).trans ?_
        exact hC _ (getD_mem_of_lt h2)
    · exact ih _ _ _ _ _ h hC
    · exact ih _ _ _ _ _ h hC
    · exact ih _ _ _ _ _ h hC
    · obtain rfl : (s, flag) = r := Option.some.inj h
      exact hC

lemma pass_subsets_exists {M U : Finset Cell} :
    ∀ (n i j : ℕ) (s : MinesweeperAI) (flag : Bool),
    Inv M s → CellsIn U s →
    (s.knowledge.length + (2 ^ U.card - dcount s.knowledge) + 1 - i) *
        (s.knowledge.length + (2 ^ U.card - dcount s.knowledge) + 2) +
      (s.knowledge.length + (2 ^ U.card - dcount s.knowledge) + 1 - j) ≤ n →
    ∃ f r, MinesweeperAI.pass_subsets f i j s flag = some r := by
  intro n
  induction n using Nat.strong_induction_on with
  | _ n ih =>
    intro i j s flag hInv hC hn
    by_cases h1 : i < s.knowledge.length
    · by_cases h2 : j < s.knowledge.length
      · have hd : dcount s.knowledge ≤ 2 ^ U.card := dcount_le_pow hInv.1 hC
        have hL : s.knowledge.length ≤
            s.knowledge.length + (2 ^ U.card - dcount s.knowledge) :=
          Nat.le_add_right _ _
        by_cases h3 : i = j
        · -- skip the diagonal pair
          obtain ⟨f, r, hf⟩ := ih (n - 1) (by
              have hP : 1 ≤ s.knowledge.length + (2 ^ U.card - dcount s.knowledge) + 1 - i := by
                omega
              have hPQ : 1 * 1 ≤
                  (s.knowledge.length + (2 ^ U.card - dcount s.knowledge) + 1 - i) *
                    (s.knowledge.length + (2 ^ U.card - dcount s.knowledge) + 2) :=
                Nat.mul_le_mul hP (by omega)
              omega) i (j + 1) s flag hInv hC (by omega)
          exact ⟨f + 1, r, by
            rw [MinesweeperAI.pass_subsets, if_pos h1, if_pos h2, if_pos h3]
            exact hf⟩
        · by_cases h4 : (s.knowledge.getD i ⟨∅, 0⟩).cells ⊆
              (s.knowledge.getD j ⟨∅, 0⟩).cells
          · by_cases h5 : (MinesweeperAI.derived_sentence s.knowledge i j).cells.card ≠ 0
            · by_cases h6 : MinesweeperAI.derived_sentence s.knowledge i j ∈ s.knowledge
              · -- already present: skip
                obtain ⟨f, r, hf⟩ := ih (n - 1) (by
                    have hP : 1 ≤ s.knowledge.length +
                        (2 ^ U.card - dcount s.knowledge) + 1 - i := by omega
                    have hPQ : 1 * 1 ≤
                        (s.knowledge.length + (2 ^ U.card - dcount s.knowledge) + 1 - i) *
                          (s.knowledge.length + (2 ^ U.card - dcount s.knowledge) + 2) :=
                      Nat.mul_le_mul hP (by omega)
                    omega) i (j + 1) s flag hInv hC (by omega)
                exact ⟨f + 1, r, by
                  rw [MinesweeperAI.pass_subsets, if_pos h1, if_pos h2, if_neg h3,
                    if_pos h4, if_pos h5, if_pos h6]
                  exact hf⟩
              · -- append the derived sentence: the size potential is unchanged
                have hInv2 : Inv M { s with knowledge :=
                    s.knowledge ++ [MinesweeperAI.derived_sentence s.knowledge i j] } :=
                  Inv_append_derived hInv h1 h2 h4
                have hC2 : CellsIn U { s with knowledge :=
                    s.knowledge ++ [MinesweeperAI.derived_sentence s.knowledge i j] } := by
                  intro S hS
                  rcases List.mem_append.mp hS with hS' | hS'
                  · exact hC S hS'
                  · rw [List.mem_singleton.mp hS']
                    exact (Finset.sdiff_subset).trans (hC _ (getD_mem_of_lt h2))
                have hdc2 : dcount (s.knowledge ++
                    [MinesweeperAI.derived_sentence s.knowledge i j]) =
                    dcount s.knowledge + 1 := dcount_append_not_mem h6
                have hd2 : dcount (s.knowledge ++
                    [MinesweeperAI.derived_sentence s.knowledge i j]) ≤ 2 ^ U.card :=
                  dcount_le_pow hInv2.1 hC2
                have hLeq : (s.knowledge ++
                      [MinesweeperAI.derived_sentence s.knowledge i j]).length +
                      (2 ^ U.card - dcount (s.knowledge ++
                        [MinesweeperAI.derived_sentence s.knowledge i j])) =
                    s.knowledge.length + (2 ^ U.card - dcount s.knowledge) := by
                  rw [List.length_append, List.length_singleton, hdc2]
                  omega
                obtain ⟨f, r, hf⟩ := ih (n - 1) (by
                    have hP : 1 ≤ s.knowledge.length +
                        (2 ^ U.card - dcount s.knowledge) + 1 - i := by omega
                    have hPQ : 1 * 1 ≤
                        (s.knowledge.length + (2 ^ U.card - dcount s.knowledge) + 1 - i) *
                          (s.knowledge.length + (2 ^ U.card - dcount s.knowledge) + 2) :=
                      Nat.mul_le_mul hP (by omega)
                    omega)
                  i (j + 1)
                  { s with knowledge :=
                      s.knowledge ++ [MinesweeperAI.derived_sentence s.knowledge i j] }
                  true hInv2 hC2 (by
                    simp only
                    rw [hLeq]
                    omega)
                exact ⟨f + 1, r, by
                  rw [MinesweeperAI.pass_subsets, if_pos h1, if_pos h2, if_neg h3,
                    if_pos h4, if_pos h5, if_neg h6]
                  exact hf⟩
            · obtain ⟨f, r, hf⟩ := ih (n - 1) (by
                  have hP : 1 ≤ s.knowledge.length +
                      (2 ^ U.card - dcount s.knowledge) + 1 - i := by omega
                  have hPQ : 1 * 1 ≤
                      (s.knowledge.length + (2 ^ U.card - dcount s.knowledge) + 1 - i) *
                        (s.knowledge.length + (2 ^ U.card - dcount s.knowledge) + 2) :=
                    Nat.mul_le_mul hP (by omega)
                  omega) i (j + 1) s flag hInv hC (by omega)
              exact ⟨f + 1, r, by
                rw [MinesweeperAI.pass_subsets, if_pos h1, if_pos h2, if_neg h3,
                  if_pos h4, if_neg h5]
                exact hf⟩
          · obtain ⟨f, r, hf⟩ := ih (n - 1) (by
                have hP : 1 ≤ s.knowledge.length +
                    (2 ^ U.card - dcount s.knowledge) + 1 - i := by omega
                have hPQ : 1 * 1 ≤
                    (s.knowledge.length + (2 ^ U.card - dcount s.knowledge) + 1 - i) *
                      (s.knowledge.length + (2 ^ U.card - dcount s.knowledge) + 2) :=
                  Nat.mul_le_mul hP (by omega)
                omega) i (j + 1) s flag hInv hC (by omega)
            exact ⟨f + 1, r, by
              rw [MinesweeperAI.pass_subsets, if_pos h1, if_pos h2, if_neg h3,
                if_neg h4]
              exact hf⟩
      · -- inner scan exhausted: advance the outer index
        have hd : dcount s.knowledge ≤ 2 ^ U.card := dcount_le_pow hInv.1 hC
        have hL : s.knowledge.length ≤
            s.knowledge.length + (2 ^ U.card - dcount s.knowledge) :=
          Nat.le_add_right _ _
        have hsplit : (s.knowledge.length + (2 ^ U.card - dcount s.knowledge) + 1 - i) *
            (s.knowledge.length + (2 ^ U.card - dcount s.knowledge) + 2) =
            (s.knowledge.length + (2 ^ U.card - dcount s.knowledge) - i) *
              (s.knowledge.length + (2 ^ U.card - dcount s.knowledge) + 2) +
              (s.knowledge.length + (2 ^ U.card - dcount s.knowledge) + 2) := by
          have heq : s.knowledge.length + (2 ^ U.card - dcount s.knowledge) + 1 - i =
              (s.knowledge.length + (2 ^ U.card - dcount s.knowledge) - i) + 1 := by
            omega
          rw [heq]
          ring
        obtain ⟨f, r, hf⟩ := ih (n - 1) (by
            have hP : 1 ≤ s.knowledge.length +
                (2 ^ U.card - dcount s.knowledge) + 1 - i := by omega
            have hPQ : 1 * 1 ≤
                (s.knowledge.length + (2 ^ U.card - dcount s.knowledge) + 1 - i) *
                  (s.knowledge.length + (2 ^ U.card - dcount s.knowledge) + 2) :=
              Nat.mul_le_mul hP (by omega)
            omega)
          (i + 1) 0 s flag hInv hC (by
            have heq2 : s.knowledge.length + (2 ^ U.card - dcount s.knowledge) + 1 -
                (i + 1) =
                s.knowledge.length + (2 ^ U.card - dcount s.knowledge) - i := by
              omega
            rw [heq2]
            omega)
        exact ⟨f + 1, r, by
          rw [MinesweeperAI.pass_subsets, if_pos h1, if_neg h2]
          exact hf⟩
    · exact ⟨1, (s, flag), by
        rw [MinesweeperAI.pass_subsets, if_neg h1]⟩

lemma loop_round_decrease {M U : Finset Cell} {f : ℕ} {s s' : MinesweeperAI}
    (hr : s.loop_round f = some (s', true)) (hInv : Inv M s) (hC : CellsIn U s) :
    Inv M s' ∧ CellsIn U s' ∧
    (2 * U.card - marked_card U s') * (2 ^ U.card + 1) +
        (2 ^ U.card - dcount s'.knowledge) <
      (2 * U.card - marked_card U s) * (2 ^ U.card + 1) +
        (2 ^ U.card - dcount s.knowledge) := by
  unfold MinesweeperAI.loop_round at hr
  have hInva := Inv_pass_conclusions s hInv
  obtain ⟨hCa, hmlea, hstra⟩ := pass_conclusions_progress s hC
  have hInv' : Inv M s' := by
    have := Inv_pass_subsets _ _ _ _ _ _ hr hInva
    exact this
  have hC' : CellsIn U s' := by
    have := CellsIn_pass_subsets _ _ _ _ _ _ hr hCa
    exact this
  obtain ⟨t, hs'eq, hnd, hnin, hfl⟩ := pass_subsets_spec _ _ _ _ _ _ _ hr
  have hmeq : marked_card U s' = marked_card U (s.pass_conclusions).1 := by
    rw [hs'eq]
    rfl
  have hkneq : s'.knowledge = (s.pass_conclusions).1.knowledge ++ t := by
    rw [hs'eq]
  have hdc' : dcount s'.knowledge =
      dcount (s.pass_conclusions).1.knowledge + t.length := by
    rw [hkneq, dcount_append_disjoint hnd hnin]
  have hm'le : marked_card U s' ≤ 2 * U.card := marked_card_le U s'
  have hmle : marked_card U s ≤ 2 * U.card := marked_card_le U s
  have hd'le : dcount s'.knowledge ≤ 2 ^ U.card := dcount_le_pow hInv'.1 hC'
  have hdle : dcount s.knowledge ≤ 2 ^ U.card := dcount_le_pow hInv.1 hC
  refine ⟨hInv', hC', ?_⟩
  cases ha2 : (s.pass_conclusions).2 with
  | true =>
    have hstrict := hstra ha2
    have hlt : marked_card U s < marked_card U s' := by omega
    have hXlt : 2 * U.card - marked_card U s' < 2 * U.card - marked_card U s := by
      omega
    calc (2 * U.card - marked_card U s') * (2 ^ U.card + 1) +
          (2 ^ U.card - dcount s'.knowledge)
        < (2 * U.card - marked_card U s') * (2 ^ U.card + 1) + (2 ^ U.card + 1) := by
          omega
      _ = ((2 * U.card - marked_card U s') + 1) * (2 ^ U.card + 1) := by ring
      _ ≤ (2 * U.card - marked_card U s) * (2 ^ U.card + 1) :=
          Nat.mul_le_mul_right _ (by omega)
      _ ≤ (2 * U.card - marked_card U s) * (2 ^ U.card + 1) +
          (2 ^ U.card - dcount s.knowledge) := Nat.le_add_right _ _
  | false =>
    have hid := pass_conclusions_id s ha2
    have ha1 : (s.pass_conclusions).1 = s := by rw [hid]
    have htne : t.length ≥ 1 := by
      cases t with
      | nil =>
        rw [ha2] at hfl
        simp at hfl
      | cons x t' => simp
    have hdlt : dcount s.knowledge < dcount s'.knowledge := by
      rw [hdc', ha1]
      omega
    have hmeq2 : marked_card U s' = marked_card U s := by rw [hmeq, ha1]
    rw [hmeq2]
    omega

lemma inference_loop_exists {M U : Finset Cell} :
    ∀ (n : ℕ) (s : MinesweeperAI), Inv M s → CellsIn U s →
    (2 * U.card - marked_card U s) * (2 ^ U.card + 1) +
      (2 ^ U.card - dcount s.knowledge) ≤ n →
    ∃ f s', MinesweeperAI.inference_loop f s = some s' := by
  intro n
  induction n using Nat.strong_induction_on with
  | _ n ih =>
    intro s hInv hC hn
    have hInva := Inv_pass_conclusions s hInv
    obtain ⟨hCa, _, _⟩ := pass_conclusions_progress s hC
    obtain ⟨f1, r, hps⟩ := pass_subsets_exists
      (((s.pass_conclusions).1.knowledge.length +
          (2 ^ U.card - dcount (s.pass_conclusions).1.knowledge) + 1 - 0) *
        ((s.pass_conclusions).1.knowledge.length +
          (2 ^ U.card - dcount (s.pass_conclusions).1.knowledge) + 2) +
        ((s.pass_conclusions).1.knowledge.length +
          (2 ^ U.card - dcount (s.pass_conclusions).1.knowledge) + 1 - 0))
      0 0 (s.pass_conclusions).1 (s.pass_conclusions).2 hInva hCa (le_refl _)
    obtain ⟨s1, flag1⟩ := r
    have hlr : s.loop_round f1 = some (s1, flag1) := hps
    cases flag1 with
    | false =>
      refine ⟨f1 + 1, s1, ?_⟩
      rw [MinesweeperAI.inference_loop, hlr]
      simp
    | true =>
      obtain ⟨hInv1, hC1, hlt⟩ := loop_round_decrease hlr hInv hC
      obtain ⟨f2, s', h2⟩ := ih (n - 1) (by omega) s1 hInv1 hC1 (by omega)
      refine ⟨max f1 f2 + 1, s', ?_⟩
      rw [MinesweeperAI.inference_loop]
      rw [loop_round_mono f1 (max f1 f2) s (s1, true) (le_max_left _ _) hlr]
      simp only [if_pos rfl]
      exact inference_loop_mono f2 (max f1 f2) s1 s' (le_max_right _ _) h2

/-! ## C3: the inference fixpoint loop terminates -/

/-- C3.  For every knowledge-base state reachable under the driver
contract and every `add_knowledge` call on a non-mine cell with the true
adjacent-mine count, the inference fixpoint loop inside `add_knowledge`
terminates: some finite fuel makes the embedded loop reach its fixpoint
and return.  (The proof follows the specification's argument: every
sentence stays true of the mine placement, so the cells of all sentences
live in a fixed finite universe and a sentence's count is determined by
its cell set; each round either marks a new cell of that universe safe
or mined, or appends a sentence value not present before, and both can
happen only finitely often.) -/
theorem add_knowledge_terminates (M : Finset Cell) (s : MinesweeperAI)
    (cell : Cell) (h : Reaches M s) (hcell : cell ∉ M) :
    ∃ f s', MinesweeperAI.add_knowledge f cell
      ((nbhd s.height s.width cell ∩ M).card : ℤ) s = some s' := by
  have hInv0 := Reaches_Inv h
  have hInv3 := Inv_observe_start hInv0 hcell
  have hC : CellsIn
      (knowledge_cells (MinesweeperAI.observe_start s cell
        ((nbhd s.height s.width cell ∩ M).card : ℤ)).knowledge)
      (MinesweeperAI.observe_start s cell
        ((nbhd s.height s.width cell ∩ M).card : ℤ)) :=
    fun S hS => knowledge_cells_subset _ S hS
  obtain ⟨f, s', hf⟩ := inference_loop_exists
    ((2 * (knowledge_cells (MinesweeperAI.observe_start s cell
        ((nbhd s.height s.width cell ∩ M).card : ℤ)).knowledge).card -
      marked_card (knowledge_cells (MinesweeperAI.observe_start s cell
        ((nbhd s.height s.width cell ∩ M).card : ℤ)).knowledge)
        (MinesweeperAI.observe_start s cell
          ((nbhd s.height s.width cell ∩ M).card : ℤ))) *
      (2 ^ (knowledge_cells (MinesweeperAI.observe_start s cell
        ((nbhd s.height s.width cell ∩ M).card : ℤ)).knowledge).card + 1) +
      (2 ^ (knowledge_cells (MinesweeperAI.observe_start s cell
        ((nbhd s.height s.width cell ∩ M).card : ℤ)).knowledge).card -
        dcount (MinesweeperAI.observe_start s cell
          ((nbhd s.height s.width cell ∩ M).card : ℤ)).knowledge))
    (MinesweeperAI.observe_start s cell
      ((nbhd s.height s.width cell ∩ M).card : ℤ))
    hInv3 hC (le_refl _)
  exact ⟨f, s', hf⟩

/-- Witness for C3: on a fresh mine-free 1×2 grid, observing `(0,0)`
with its true count terminates. -/
theorem add_knowledge_terminates_witness :
    ∃ f s', MinesweeperAI.add_knowledge f ((0:ℤ),(0:ℤ))
      ((nbhd (MinesweeperAI.init 1 2).height (MinesweeperAI.init 1 2).width
        ((0:ℤ),(0:ℤ)) ∩ ∅).card : ℤ) (MinesweeperAI.init 1 2) = some s' :=
  add_knowledge_terminates ∅ (MinesweeperAI.init 1 2) ((0:ℤ),(0:ℤ))
    (Reaches.base 1 2) (by decide)

end Minesweeper
